import Mathlib

set_option maxRecDepth 8192

namespace UIGen

/-! Path utilities.

Modelled from the spec: the repository sources provided contain only the test
suites; the `PathUtils` module of spec section 4.1 is absent.  Its `normalize`
operation collapses redundant separators, resolves `.` and `..` segments
relative to the root, ensures a leading `/`, strips a trailing `/` (except the
root itself stays `/`), and fails with `InvalidPath` when an excess `..` would
escape the root. -/

/-- Split a character list on the separator character `/`. -/
def splitSlash : List Char → List (List Char)
  | [] => [[]]
  | c :: cs =>
    if c = '/' then [] :: splitSlash cs
    else
      match splitSlash cs with
      | [] => [[c]]
      | p :: ps => (c :: p) :: ps

/-- Process path segments left to right against a stack of resolved segments:
empty segments and `.` are skipped, `..` pops (failing at the root), and any
other segment is pushed. -/
def normStack : List (List Char) → List (List Char) → Option (List (List Char))
  | acc, [] => some acc
  | acc, s :: rest =>
    if s = [] ∨ s = ['.'] then normStack acc rest
    else if s = ['.', '.'] then
      match acc with
      | [] => none
      | _ :: acc' => normStack acc' rest
    else normStack (s :: acc) rest

/-- Render a segment list, each segment preceded by a `/`. -/
def foldSegs (segs : List (List Char)) : List Char :=
  segs.foldr (fun s acc => '/' :: (s ++ acc)) []

/-- Render a segment list as an absolute path; the empty list is the root. -/
def renderSegs (segs : List (List Char)) : List Char :=
  if segs = [] then ['/'] else foldSegs segs

/-- The normalized absolute path string denoted by a segment list. -/
def pathOfSegs (segs : List (List Char)) : String :=
  String.mk (renderSegs segs)

/-- Normalize a path to its list of resolved segments, or `none` when the
resolution of a `..` would escape the root. -/
def normalizeSegs (p : String) : Option (List (List Char)) :=
  (normStack [] (splitSlash p.data)).map List.reverse

/-- Modelled from the spec: `PathUtils.normalize`. -/
def normalize (p : String) : Option String :=
  (normalizeSegs p).map pathOfSegs

/-- A segment that normalization can emit: nonempty, not a dot segment, and
free of the separator. -/
def validSeg (s : List Char) : Prop :=
  s ≠ [] ∧ s ≠ ['.'] ∧ s ≠ ['.', '.'] ∧ '/' ∉ s

instance validSegDec (s : List Char) : Decidable (validSeg s) := by
  unfold validSeg; exact inferInstance

theorem splitSlash_sep_free : ∀ l, ∀ s ∈ splitSlash l, '/' ∉ s := by
  intro l
  induction l with
  | nil =>
    intro s hs
    simp [splitSlash] at hs
    simp [hs]
  | cons c cs ih =>
    intro s hs
    by_cases hc : c = '/'
    · rw [splitSlash, if_pos hc] at hs
      rcases List.mem_cons.mp hs with h | h
      · simp [h]
      · exact ih s h
    · rw [splitSlash, if_neg hc] at hs
      cases e : splitSlash cs with
      | nil =>
        rw [e] at hs
        simp at hs
        intro hmem
        rw [hs] at hmem
        have : '/' = c := by simpa using hmem
        exact hc this.symm
      | cons p ps =>
        rw [e] at hs
        rcases List.mem_cons.mp hs with h | h
        · subst h
          intro hmem
          rcases List.mem_cons.mp hmem with h1 | h1
          · exact hc h1.symm
          · exact ih p (by simp [e]) h1
        · exact ih s (by simp [e, h])

theorem splitSlash_ne_nil (l : List Char) : splitSlash l ≠ [] := by
  cases l with
  | nil => simp [splitSlash]
  | cons c cs =>
    rw [splitSlash]
    by_cases hc : c = '/'
    · simp [hc]
    · rw [if_neg hc]
      cases e : splitSlash cs <;> simp

theorem normStack_cons (acc : List (List Char)) (s : List Char) (rest : List (List Char)) :
    normStack acc (s :: rest) =
      if s = [] ∨ s = ['.'] then normStack acc rest
      else if s = ['.', '.'] then
        match acc with
        | [] => none
        | _ :: acc' => normStack acc' rest
      else normStack (s :: acc) rest := rfl

theorem normStack_push (segs : List (List Char)) :
    ∀ acc, (∀ s ∈ segs, validSeg s) → normStack acc segs = some (segs.reverse ++ acc) := by
  induction segs with
  | nil => intro acc _; simp [normStack]
  | cons s rest ih =>
    intro acc hv
    have hs : validSeg s := hv s (by simp)
    obtain ⟨h1, h2, h3, _⟩ := hs
    rw [normStack_cons, if_neg (by simp [h1, h2]), if_neg h3]
    rw [ih (s :: acc) (fun t ht => hv t (by simp [ht]))]
    simp

theorem normStack_valid (segs : List (List Char)) :
    ∀ acc out, (∀ s ∈ acc, validSeg s) → (∀ s ∈ segs, '/' ∉ s) →
      normStack acc segs = some out → ∀ s ∈ out, validSeg s := by
  induction segs with
  | nil =>
    intro acc out hacc _ h
    simp [normStack] at h
    exact h ▸ hacc
  | cons s rest ih =>
    intro acc out hacc hfree h
    by_cases h1 : s = [] ∨ s = ['.']
    · rw [normStack_cons, if_pos h1] at h
      exact ih acc out hacc (fun t ht => hfree t (by simp [ht])) h
    · by_cases h2 : s = ['.', '.']
      · rw [normStack_cons, if_neg h1, if_pos h2] at h
        cases acc with
        | nil => simp at h
        | cons a acc' =>
          exact ih acc' out (fun t ht => hacc t (by simp [ht]))
            (fun t ht => hfree t (by simp [ht])) h
      · rw [normStack_cons, if_neg h1, if_neg h2] at h
        refine ih (s :: acc) out ?_ (fun t ht => hfree t (by simp [ht])) h
        intro t ht
        rcases List.mem_cons.mp ht with h' | h'
        · subst h'
          push_neg at h1
          exact ⟨h1.1, h1.2, h2, hfree t (by simp)⟩
        · exact hacc t h'

theorem splitSlash_append_left (a : List Char) :
    ∀ xs p ps, '/' ∉ a → splitSlash xs = p :: ps →
      splitSlash (a ++ xs) = (a ++ p) :: ps := by
  induction a with
  | nil => intro xs p ps _ h; simpa using h
  | cons c a' ih =>
    intro xs p ps hfree h
    have hc : c ≠ '/' := fun hc => hfree (by simp [hc])
    rw [List.cons_append, splitSlash, if_neg hc,
      ih xs p ps (fun hm => hfree (by simp [hm])) h]
    rfl

theorem splitSlash_foldSegs (m : List (List Char)) :
    (∀ s ∈ m, '/' ∉ s) → splitSlash (foldSegs m) = [] :: m := by
  induction m with
  | nil => intro _; simp [foldSegs, splitSlash]
  | cons s rest ih =>
    intro hfree
    have : foldSegs (s :: rest) = '/' :: (s ++ foldSegs rest) := rfl
    rw [this, splitSlash, if_pos rfl]
    rw [splitSlash_append_left s (foldSegs rest) [] rest
      (hfree s (by simp)) (ih (fun t ht => hfree t (by simp [ht])))]
    simp

theorem data_pathOfSegs (m : List (List Char)) : (pathOfSegs m).data = renderSegs m := rfl

theorem normalizeSegs_pathOfSegs (m : List (List Char)) (hv : ∀ s ∈ m, validSeg s) :
    normalizeSegs (pathOfSegs m) = some m := by
  unfold normalizeSegs
  rw [data_pathOfSegs]
  cases m with
  | nil =>
    simp [renderSegs, splitSlash, normStack]
  | cons s rest =>
    have hne : s :: rest ≠ ([] : List (List Char)) := by simp
    rw [renderSegs, if_neg hne]
    rw [splitSlash_foldSegs (s :: rest) (fun t ht => (hv t ht).2.2.2)]
    rw [normStack_cons, if_pos (Or.inl rfl)]
    rw [normStack_push (s :: rest) [] hv]
    simp

theorem normalizeSegs_valid (p : String) (segs : List (List Char))
    (h : normalizeSegs p = some segs) : ∀ s ∈ segs, validSeg s := by
  unfold normalizeSegs at h
  cases e : normStack [] (splitSlash p.data) with
  | none => simp [e] at h
  | some out =>
    simp [e] at h
    subst h
    intro s hs
    exact normStack_valid (splitSlash p.data) [] out (by simp)
      (splitSlash_sep_free p.data) e s (List.mem_reverse.mp hs)

/-- C8: for every valid path `p` (one whose `..` resolution does not escape
the root), `normalize` is idempotent:
`normalize (normalize p) = normalize p`. -/
theorem spec_c8_normalize_idempotent (p q : String) (h : normalize p = some q) :
    normalize q = some q := by
  unfold normalize at h ⊢
  cases e : normalizeSegs p with
  | none => simp [e] at h
  | some segs =>
    simp [e] at h
    subst h
    rw [normalizeSegs_pathOfSegs segs (normalizeSegs_valid p segs e)]
    rfl

/-- Witness for C8 at a concrete path with redundant separators and dot
segments. -/
theorem spec_c8_normalize_idempotent_witness : normalize "/b/c" = some "/b/c" :=
  spec_c8_normalize_idempotent "/a/../b//./c/" "/b/c" (by decide)

/-! The virtual file system.

Modelled from the spec: the `VirtualFileSystem` module of spec section 4.2 is
absent from the provided sources (only its test suites are present).  It is an
in-memory tree of files and directories keyed by normalized absolute path; the
root directory `/` always exists; mutating operations are all-or-nothing. -/

/-- A node of the file tree: a file with content, or a directory. -/
inductive FSNode where
  | file (content : String)
  | directory
deriving DecidableEq

/-- The error taxonomy of the file-system layer (spec section 7). -/
inductive FsError where
  | invalidPath
  | notFound
  | notAFile
  | alreadyExists
  | corruptSnapshot
deriving DecidableEq

/-- The path-to-node mapping that is the single source of truth; lookups take
the first entry with a matching key. -/
abbrev FS : Type := List (String × FSNode)

/-- The freshly created file system: just the root directory. -/
def emptyFS : FS := [("/", FSNode.directory)]

/-- Look up the node stored at a (already normalized) path. -/
def lookupNode (fs : FS) (p : String) : Option FSNode :=
  (fs.find? (fun e => e.1 = p)).map (fun e => e.2)

/-- Modelled from the spec: `exists(path)` — true for root, files and
directories; the path is normalized first. -/
def existsPath (fs : FS) (p : String) : Bool :=
  match normalize p with
  | none => false
  | some np => (lookupNode fs np).isSome

/-- The proper ancestor directories of a path given by its segments, nearest
the root first (the root itself is excluded: it always exists). -/
def ancestorPaths (segs : List (List Char)) : List String :=
  (List.range (segs.length - 1)).map (fun i => pathOfSegs (segs.take (i + 1)))

/-- Create every directory of the list that does not exist yet. -/
def mkDirs (fs : FS) (ps : List String) : FS :=
  ps.foldl (fun acc p => if (lookupNode acc p).isSome then acc else (p, FSNode.directory) :: acc) fs

/-- Modelled from the spec: `createFile(path, content)` — normalizes the path,
creates missing ancestor directories implicitly, fails with `AlreadyExists`
when a node already occupies the path. -/
def createFile (fs : FS) (p content : String) : Except FsError FS :=
  match normalizeSegs p with
  | none => Except.error FsError.invalidPath
  | some segs =>
    let np := pathOfSegs segs
    if (lookupNode fs np).isSome then Except.error FsError.alreadyExists
    else Except.ok ((np, FSNode.file content) :: mkDirs fs (ancestorPaths segs))

/-- Modelled from the spec: `createDirectory(path)` — same ancestor-creation
and collision rules as `createFile`. -/
def createDirectory (fs : FS) (p : String) : Except FsError FS :=
  match normalizeSegs p with
  | none => Except.error FsError.invalidPath
  | some segs =>
    let np := pathOfSegs segs
    if (lookupNode fs np).isSome then Except.error FsError.alreadyExists
    else Except.ok ((np, FSNode.directory) :: mkDirs fs (ancestorPaths segs))

/-- Modelled from the spec: `readFile(path)` — `NotFound` when absent,
`NotAFile` when the path holds a directory. -/
def readFile (fs : FS) (p : String) : Except FsError String :=
  match normalize p with
  | none => Except.error FsError.invalidPath
  | some np =>
    match lookupNode fs np with
    | none => Except.error FsError.notFound
    | some FSNode.directory => Except.error FsError.notAFile
    | some (FSNode.file c) => Except.ok c

/-- Replace the node stored at an existing key, keeping entry order. -/
def updateEntry (fs : FS) (k : String) (v : FSNode) : FS :=
  fs.map (fun e => if e.1 = k then (k, v) else e)

/-- Modelled from the spec: `updateFile(path, content)` — replaces the content
of an existing file. -/
def updateFile (fs : FS) (p content : String) : Except FsError FS :=
  match normalize p with
  | none => Except.error FsError.invalidPath
  | some np =>
    match lookupNode fs np with
    | none => Except.error FsError.notFound
    | some FSNode.directory => Except.error FsError.notAFile
    | some (FSNode.file _) => Except.ok (updateEntry fs np (FSNode.file content))

/-- `k` lies in the subtree rooted at `base`: it is `base` itself or has
`base ++ "/"` as a literal prefix. -/
def underPath (base k : String) : Prop :=
  k = base ∨ (base.data ++ ['/']) <+: k.data

instance underPathDec (base k : String) : Decidable (underPath base k) := by
  unfold underPath; exact inferInstance

/-- Re-key one path of the renamed subtree: replace the `o` prefix by `n`. -/
def rekeyPath (o n k : String) : String :=
  if k = o then n else String.mk (n.data ++ k.data.drop o.data.length)

/-- The entry transformation applied by a rename from `o` to `n`. -/
def renameKey (o n k : String) : String :=
  if underPath o k then rekeyPath o n k else k

/-- Apply a key transformation to every entry of the mapping. -/
def keymap (h : String → String) (fs : FS) : FS :=
  fs.map (fun e => (h e.1, e.2))

/-- The body of `rename` once both paths are normalized. -/
def renameChecked (fs : FS) (osegs nsegs : List (List Char)) : Except FsError FS :=
  if pathOfSegs osegs = "/" then Except.error FsError.invalidPath
  else if (lookupNode fs (pathOfSegs osegs)).isNone then Except.error FsError.notFound
  else if (lookupNode fs (pathOfSegs nsegs)).isSome then Except.error FsError.alreadyExists
  else Except.ok (keymap (renameKey (pathOfSegs osegs) (pathOfSegs nsegs))
    (mkDirs fs (ancestorPaths nsegs)))

/-- Modelled from the spec: `rename(oldPath, newPath)` — fails if `oldPath`
does not exist, `newPath` already exists, or `oldPath` is the root; otherwise
creates missing ancestor directories for `newPath` and re-keys every path of
the `oldPath` subtree by replacing the `oldPath` prefix with `newPath`. -/
def rename (fs : FS) (o n : String) : Except FsError FS :=
  match normalizeSegs o, normalizeSegs n with
  | some osegs, some nsegs => renameChecked fs osegs nsegs
  | _, _ => Except.error FsError.invalidPath

/-- Modelled from the spec: `delete(path)` — fails for the root or an absent
path; otherwise removes the node and all of its descendants. -/
def deleteNode (fs : FS) (p : String) : Except FsError FS :=
  match normalizeSegs p with
  | none => Except.error FsError.invalidPath
  | some segs =>
    let np := pathOfSegs segs
    if np = "/" then Except.error FsError.invalidPath
    else if (lookupNode fs np).isNone then Except.error FsError.notFound
    else Except.ok (fs.filter (fun e => decide (¬ underPath np e.1)))

/-- One entry of a serialized snapshot. -/
inductive SnapEntry where
  | sfile (content : String)
  | sdir
deriving DecidableEq

/-- Look up a snapshot entry by path. -/
def lookupSnap (snap : List (String × SnapEntry)) (p : String) : Option SnapEntry :=
  (snap.find? (fun e => e.1 = p)).map (fun e => e.2)

/-- The node a snapshot entry restores to. -/
def nodeOfSnap : SnapEntry → FSNode
  | SnapEntry.sfile c => FSNode.file c
  | SnapEntry.sdir => FSNode.directory

/-- A snapshot key is well formed when it is a normalized path and its parent
directory is present in the snapshot (or it is the root). -/
def snapKeyOk (snap : List (String × SnapEntry)) (k : String) : Bool :=
  match normalizeSegs k with
  | none => false
  | some segs =>
    decide (pathOfSegs segs = k) &&
      (decide (segs = []) || (lookupSnap snap (pathOfSegs segs.dropLast)).isSome)

/-- Modelled from the spec: `deserialize(snapshot)` — fully replaces the
current state; rejects malformed snapshots (missing root, orphaned paths whose
parent directory is absent) with `CorruptSnapshot`. -/
def deserialize (snap : List (String × SnapEntry)) : Except FsError FS :=
  if lookupSnap snap "/" = some SnapEntry.sdir ∧ snap.all (fun e => snapKeyOk snap e.1) then
    Except.ok (snap.map (fun e => (e.1, nodeOfSnap e.2)))
  else Except.error FsError.corruptSnapshot

/-- The mutating operations of the public contract. -/
inductive FsOp where
  | opCreateFile (p c : String)
  | opCreateDir (p : String)
  | opUpdateFile (p c : String)
  | opRename (o n : String)
  | opDelete (p : String)

/-- The state after an operation: the new tree on success, the unchanged tree
on failure (mutating operations are all-or-nothing). -/
def applyOp (fs : FS) : FsOp → FS
  | FsOp.opCreateFile p c => (createFile fs p c).toOption.getD fs
  | FsOp.opCreateDir p => (createDirectory fs p).toOption.getD fs
  | FsOp.opUpdateFile p c => (updateFile fs p c).toOption.getD fs
  | FsOp.opRename o n => (rename fs o n).toOption.getD fs
  | FsOp.opDelete p => (deleteNode fs p).toOption.getD fs

/-- Apply a sequence of operations in arrival order. -/
def applyOps (fs : FS) (ops : List FsOp) : FS :=
  ops.foldl applyOp fs

/-- The root invariant: `/` is present and is a directory. -/
def rootExists (fs : FS) : Prop :=
  lookupNode fs "/" = some FSNode.directory

instance rootExistsDec (fs : FS) : Decidable (rootExists fs) := by
  unfold rootExists; exact inferInstance

/-- An error-carrying result, used to state failure conditions. -/
def isErr {ε α : Type} : Except ε α → Bool
  | Except.error _ => true
  | Except.ok _ => false

theorem lookupNode_nil (q : String) : lookupNode ([] : FS) q = none := rfl

theorem lookupNode_cons (k : String) (v : FSNode) (fs : FS) (q : String) :
    lookupNode ((k, v) :: fs) q = if k = q then some v else lookupNode fs q := by
  unfold lookupNode
  by_cases h : k = q <;> simp [List.find?_cons, h]

theorem mkDirs_nil (fs : FS) : mkDirs fs [] = fs := rfl

theorem mkDirs_cons (fs : FS) (p : String) (ps : List String) :
    mkDirs fs (p :: ps) =
      mkDirs (if (lookupNode fs p).isSome then fs else (p, FSNode.directory) :: fs) ps := rfl

theorem mkDirs_pres (ps : List String) :
    ∀ fs q v, lookupNode fs q = some v → lookupNode (mkDirs fs ps) q = some v := by
  induction ps with
  | nil => intro fs q v h; exact h
  | cons p rest ih =>
    intro fs q v h
    rw [mkDirs_cons]
    by_cases hp : (lookupNode fs p).isSome
    · rw [if_pos hp]; exact ih fs q v h
    · rw [if_neg hp]
      refine ih _ q v ?_
      rw [lookupNode_cons]
      have hpq : p ≠ q := by
        intro e; subst e; rw [h] at hp; simp at hp
      rw [if_neg hpq]; exact h

theorem mkDirs_isSome (ps : List String) (fs : FS) (q : String)
    (h : (lookupNode fs q).isSome) : (lookupNode (mkDirs fs ps) q).isSome := by
  obtain ⟨v, hv⟩ := Option.isSome_iff_exists.mp h
  rw [mkDirs_pres ps fs q v hv]; rfl

theorem mkDirs_mem (ps : List String) :
    ∀ fs q, q ∈ ps → (lookupNode (mkDirs fs ps) q).isSome := by
  induction ps with
  | nil => intro fs q h; simp at h
  | cons p rest ih =>
    intro fs q hq
    rw [mkDirs_cons]
    rcases List.mem_cons.mp hq with h | h
    · subst h
      by_cases hp : (lookupNode fs q).isSome
      · rw [if_pos hp]; exact mkDirs_isSome rest fs q hp
      · rw [if_neg hp]
        refine mkDirs_isSome rest _ q ?_
        rw [lookupNode_cons, if_pos rfl]; rfl
    · exact ih _ q h

theorem mkDirs_keys (ps : List String) :
    ∀ fs q, (lookupNode (mkDirs fs ps) q).isSome →
      (lookupNode fs q).isSome ∨ q ∈ ps := by
  induction ps with
  | nil => intro fs q h; exact Or.inl h
  | cons p rest ih =>
    intro fs q h
    rw [mkDirs_cons] at h
    by_cases hp : (lookupNode fs p).isSome
    · rw [if_pos hp] at h
      rcases ih fs q h with h' | h'
      · exact Or.inl h'
      · exact Or.inr (by simp [h'])
    · rw [if_neg hp] at h
      rcases ih _ q h with h' | h'
      · rw [lookupNode_cons] at h'
        by_cases hpq : p = q
        · exact Or.inr (by simp [hpq.symm])
        · rw [if_neg hpq] at h'; exact Or.inl h'
      · exact Or.inr (by simp [h'])

theorem lookupNode_updateEntry_ne (fs : FS) (k : String) (v : FSNode) (q : String)
    (h : q ≠ k) : lookupNode (updateEntry fs k v) q = lookupNode fs q := by
  induction fs with
  | nil => rfl
  | cons e fs ih =>
    unfold updateEntry at ih ⊢
    rw [List.map_cons]
    by_cases he : e.1 = k
    · rw [if_pos he, lookupNode_cons, if_neg (Ne.symm h)]
      have : e = (e.1, e.2) := rfl
      rw [this, lookupNode_cons, if_neg (by rw [he]; exact Ne.symm h)]
      exact ih
    · rw [if_neg he]
      have : e = (e.1, e.2) := rfl
      rw [this, lookupNode_cons, lookupNode_cons]
      by_cases heq : e.1 = q
      · rw [if_pos heq, if_pos heq]
      · rw [if_neg heq, if_neg heq]; exact ih

theorem lookupNode_updateEntry_eq (fs : FS) (k : String) (v : FSNode)
    (h : (lookupNode fs k).isSome) : lookupNode (updateEntry fs k v) k = some v := by
  induction fs with
  | nil => simp [lookupNode] at h
  | cons e fs ih =>
    unfold updateEntry at ih ⊢
    rw [List.map_cons]
    by_cases he : e.1 = k
    · rw [if_pos he, lookupNode_cons, if_pos rfl]
    · rw [if_neg he]
      have : e = (e.1, e.2) := rfl
      rw [this, lookupNode_cons, if_neg he]
      refine ih ?_
      rw [this, lookupNode_cons, if_neg he] at h
      exact h

theorem keymap_nil (h : String → String) : keymap h ([] : FS) = [] := rfl

theorem keymap_cons (h : String → String) (k : String) (v : FSNode) (fs : FS) :
    keymap h ((k, v) :: fs) = (h k, v) :: keymap h fs := rfl

theorem lookupNode_keymap_fixed (h : String → String) (fs : FS) (q : String)
    (hq : h q = q)
    (hinj : ∀ k', (lookupNode fs k').isSome → h k' = q → k' = q) :
    lookupNode (keymap h fs) q = lookupNode fs q := by
  induction fs with
  | nil => rfl
  | cons e fs ih =>
    have he : e = (e.1, e.2) := rfl
    rw [he, keymap_cons, lookupNode_cons, lookupNode_cons]
    by_cases h1 : e.1 = q
    · rw [if_pos h1, if_pos (by rw [h1, hq])]
    · rw [if_neg h1]
      have hk : h e.1 ≠ q := by
        intro hcontr
        exact h1 (hinj e.1 (by rw [he, lookupNode_cons, if_pos rfl]; rfl) hcontr)
      rw [if_neg hk]
      refine ih ?_
      intro k' hk' hh
      refine hinj k' ?_ hh
      rw [he, lookupNode_cons]
      by_cases h2 : e.1 = k'
      · rw [if_pos h2]; rfl
      · rw [if_neg h2]; exact hk'

theorem lookupNode_keymap_mapped (h : String → String) (fs : FS) (k : String) (v : FSNode)
    (hk : lookupNode fs k = some v)
    (hinj : ∀ k', (lookupNode fs k').isSome → h k' = h k → k' = k) :
    lookupNode (keymap h fs) (h k) = some v := by
  induction fs with
  | nil => simp [lookupNode] at hk
  | cons e fs ih =>
    have he : e = (e.1, e.2) := rfl
    rw [he, keymap_cons, lookupNode_cons]
    rw [he, lookupNode_cons] at hk
    by_cases h1 : e.1 = k
    · rw [if_pos h1] at hk
      rw [if_pos (by rw [h1])]
      exact hk
    · rw [if_neg h1] at hk
      have hk1 : h e.1 ≠ h k := by
        intro hcontr
        exact h1 (hinj e.1 (by rw [he, lookupNode_cons, if_pos rfl]; rfl) hcontr)
      rw [if_neg hk1]
      refine ih hk ?_
      intro k' hk' hh
      refine hinj k' ?_ hh
      rw [he, lookupNode_cons]
      by_cases h2 : e.1 = k'
      · rw [if_pos h2]; rfl
      · rw [if_neg h2]; exact hk'

theorem lookupNode_keymap_none (h : String → String) (fs : FS) (t : String)
    (ht : ∀ e ∈ fs, h e.1 ≠ t) : lookupNode (keymap h fs) t = none := by
  induction fs with
  | nil => rfl
  | cons e fs ih =>
    have he : e = (e.1, e.2) := rfl
    rw [he, keymap_cons, lookupNode_cons, if_neg (ht e (by simp))]
    exact ih (fun e' he' => ht e' (by simp [he']))

theorem lookupNode_keymap_isSome (h : String → String) (fs : FS) (k : String)
    (hk : (lookupNode fs k).isSome) : (lookupNode (keymap h fs) (h k)).isSome := by
  induction fs with
  | nil => simp [lookupNode] at hk
  | cons e fs ih =>
    have he : e = (e.1, e.2) := rfl
    rw [he, keymap_cons, lookupNode_cons]
    by_cases h1 : h e.1 = h k
    · rw [if_pos h1]; rfl
    · rw [if_neg h1]
      refine ih ?_
      rw [he, lookupNode_cons] at hk
      by_cases h2 : e.1 = k
      · exact absurd (by rw [h2]) h1
      · rw [if_neg h2] at hk; exact hk

theorem lookupNode_filter_keep (P : String → Bool) (fs : FS) (q : String)
    (hq : P q = true) :
    lookupNode (fs.filter (fun e => P e.1)) q = lookupNode fs q := by
  induction fs with
  | nil => rfl
  | cons e fs ih =>
    have he : e = (e.1, e.2) := rfl
    by_cases hp : P e.1 = true
    · rw [List.filter_cons_of_pos (by simpa using hp), he,
        lookupNode_cons, lookupNode_cons]
      by_cases h1 : e.1 = q
      · rw [if_pos h1, if_pos h1]
      · rw [if_neg h1, if_neg h1]; exact ih
    · rw [List.filter_cons_of_neg (by simpa using hp), he, lookupNode_cons]
      have h1 : e.1 ≠ q := by
        intro hcontr; rw [hcontr, hq] at hp; exact hp rfl
      rw [if_neg h1]; exact ih

theorem lookupNode_filter_drop (P : String → Bool) (fs : FS) (q : String)
    (hq : P q = false) :
    lookupNode (fs.filter (fun e => P e.1)) q = none := by
  induction fs with
  | nil => rfl
  | cons e fs ih =>
    have he : e = (e.1, e.2) := rfl
    by_cases hp : P e.1 = true
    · rw [List.filter_cons_of_pos (by simpa using hp), he, lookupNode_cons]
      have h1 : e.1 ≠ q := by
        intro hcontr; rw [hcontr, hq] at hp; exact Bool.noConfusion hp
      rw [if_neg h1]; exact ih
    · rw [List.filter_cons_of_neg (by simpa using hp)]
      exact ih

theorem prefixComparable {α : Type} {l₁ l₂ l₃ : List α}
    (h₁ : l₁ <+: l₃) (h₂ : l₂ <+: l₃) : l₁ <+: l₂ ∨ l₂ <+: l₁ := by
  obtain ⟨t₁, rfl⟩ := h₁
  obtain ⟨t₂, h⟩ := h₂
  rcases List.append_eq_append_iff.mp h with ⟨a, ha, _⟩ | ⟨a, ha, _⟩
  · exact Or.inr ⟨a, ha.symm⟩
  · exact Or.inl ⟨a, ha.symm⟩

theorem renderSegs_ne_nil (segs : List (List Char)) : renderSegs segs ≠ [] := by
  unfold renderSegs
  by_cases h : segs = []
  · simp [h]
  · rw [if_neg h]
    cases segs with
    | nil => exact absurd rfl h
    | cons s rest =>
      intro hcontr
      exact List.noConfusion hcontr

theorem pathOfSegs_data (segs : List (List Char)) :
    (pathOfSegs segs).data = renderSegs segs := rfl

theorem stringMk_data (l : List Char) : (String.mk l).data = l := rfl

theorem stringExt {s t : String} (h : s.data = t.data) : s = t := by
  cases s; cases t; simp at h; rw [h]

theorem underPath_self (p : String) : underPath p p := Or.inl rfl

theorem underPath_elim {base k : String} (h : underPath base k) :
    k = base ∨ ∃ t, k.data = base.data ++ '/' :: t := by
  rcases h with h | ⟨t, ht⟩
  · exact Or.inl h
  · refine Or.inr ⟨t, ?_⟩
    rw [← ht, List.append_assoc]
    rfl

theorem underPath_intro_cons (base k : String) (t : List Char)
    (h : k.data = base.data ++ '/' :: t) : underPath base k := by
  refine Or.inr ⟨t, ?_⟩
  rw [h, List.append_assoc]
  rfl

theorem not_underPath_root (op : String) (h1 : op.data ≠ []) (h2 : op ≠ "/") :
    ¬ underPath op "/" := by
  intro h
  rcases underPath_elim h with h' | ⟨t, ht⟩
  · exact h2 h'.symm
  · have hroot : ("/" : String).data = ['/'] := rfl
    rw [hroot] at ht
    have hl := congrArg List.length ht
    simp only [List.length_cons, List.length_nil, List.length_append] at hl
    have h0 : op.data.length = 0 := by omega
    exact h1 (List.length_eq_zero.mp h0)

theorem rekeyPath_self (o n : String) : rekeyPath o n o = n := by
  unfold rekeyPath; rw [if_pos rfl]

theorem rekeyPath_under {o k : String} (n : String) (hne : k ≠ o) (t : List Char)
    (h : k.data = o.data ++ '/' :: t) :
    (rekeyPath o n k).data = n.data ++ '/' :: t := by
  unfold rekeyPath
  rw [if_neg hne, stringMk_data, h]
  congr 1
  have : o.data ++ '/' :: t = o.data ++ ('/' :: t) := rfl
  rw [this, List.drop_left]

theorem underPath_rekey {o k : String} (n : String) (h : underPath o k) :
    underPath n (rekeyPath o n k) := by
  by_cases he : k = o
  · subst he; rw [rekeyPath_self]; exact underPath_self n
  · rcases underPath_elim h with h' | ⟨t, ht⟩
    · exact absurd h' he
    · exact underPath_intro_cons n (rekeyPath o n k) t (rekeyPath_under n he t ht)

theorem rekeyPath_inj {o : String} (n : String) {a b : String}
    (ha : underPath o a) (hb : underPath o b)
    (h : rekeyPath o n a = rekeyPath o n b) : a = b := by
  by_cases hae : a = o
  · by_cases hbe : b = o
    · rw [hae, hbe]
    · rcases underPath_elim hb with h' | ⟨t, ht⟩
      · exact absurd h' hbe
      · exfalso
        have hd := congrArg String.data h
        rw [hae, rekeyPath_self, rekeyPath_under n hbe t ht] at hd
        have hl := congrArg List.length hd
        simp at hl
  · by_cases hbe : b = o
    · rcases underPath_elim ha with h' | ⟨t, ht⟩
      · exact absurd h' hae
      · exfalso
        have hd := congrArg String.data h
        rw [hbe, rekeyPath_self, rekeyPath_under n hae t ht] at hd
        have hl := congrArg List.length hd
        simp at hl
    · rcases underPath_elim ha with h' | ⟨t₁, ht₁⟩
      · exact absurd h' hae
      · rcases underPath_elim hb with h' | ⟨t₂, ht₂⟩
        · exact absurd h' hbe
        · have hd := congrArg String.data h
          rw [rekeyPath_under n hae t₁ ht₁, rekeyPath_under n hbe t₂ ht₂] at hd
          have : t₁ = t₂ := by
            simpa using List.append_cancel_left hd
          refine stringExt ?_
          rw [ht₁, ht₂, this]

theorem underPath_disjoint {o n : String}
    (hon : ¬ underPath o n) (hno : ¬ underPath n o) :
    ∀ k, underPath o k → underPath n k → False := by
  intro k hok hnk
  rcases underPath_elim hok with h1 | ⟨t₁, ht₁⟩
  · subst h1; exact hno hnk
  · rcases underPath_elim hnk with h2 | ⟨t₂, ht₂⟩
    · subst h2; exact hon hok
    · have hp₁ : (o.data ++ ['/']) <+: k.data := by
        refine ⟨t₁, ?_⟩; rw [ht₁, List.append_assoc]; rfl
      have hp₂ : (n.data ++ ['/']) <+: k.data := by
        refine ⟨t₂, ?_⟩; rw [ht₂, List.append_assoc]; rfl
      have key : ∀ x y : String, (x.data ++ ['/']) <+: (y.data ++ ['/']) →
          underPath x y := by
        intro x y hxy
        rcases Nat.lt_or_ge x.data.length y.data.length with hlt | hge
        · have hle : x.data.length + 1 ≤ y.data.length := hlt
          obtain ⟨u, hu⟩ := hxy
          have htake : x.data ++ ['/'] = (y.data ++ ['/']).take (x.data.length + 1) := by
            rw [← hu]
            rw [List.take_append_eq_append_take]
            have ha : (x.data ++ ['/']).take (x.data.length + 1) = x.data ++ ['/'] := by
              apply List.take_of_length_le
              simp
            have hb : x.data.length + 1 - (x.data ++ ['/']).length = 0 := by simp
            rw [ha, hb]
            simp
          have htake2 : x.data ++ ['/'] = y.data.take (x.data.length + 1) := by
            rw [htake, List.take_append_eq_append_take]
            have hb : x.data.length + 1 - y.data.length = 0 := by omega
            rw [hb]
            simp
          refine Or.inr ⟨y.data.drop (x.data.length + 1), ?_⟩
          rw [htake2, List.take_append_drop]
        · have hlen : (x.data ++ ['/']).length ≤ (y.data ++ ['/']).length :=
            hxy.length_le
          simp at hlen
          have heq : x.data.length = y.data.length := Nat.le_antisymm hlen hge
          have : x.data ++ ['/'] = y.data ++ ['/'] :=
            hxy.eq_of_length (by simp [heq])
          have hxyd : x.data = y.data := by
            exact List.append_cancel_right this
          exact Or.inl (stringExt hxyd).symm
      rcases prefixComparable hp₁ hp₂ with hc | hc
      · exact hon (key o n hc)
      · exact hno (key n o hc)

theorem foldSegs_init (l : List (List Char)) :
    ∀ X, l.foldr (fun s acc => '/' :: (s ++ acc)) X = foldSegs l ++ X := by
  induction l with
  | nil => intro X; simp [foldSegs]
  | cons s rest ih =>
    intro X
    show '/' :: (s ++ rest.foldr (fun s acc => '/' :: (s ++ acc)) X) = _
    rw [ih X]
    show '/' :: (s ++ (foldSegs rest ++ X)) = ('/' :: (s ++ foldSegs rest)) ++ X
    simp

theorem foldSegs_append (l₁ l₂ : List (List Char)) :
    foldSegs (l₁ ++ l₂) = foldSegs l₁ ++ foldSegs l₂ := by
  have h := foldSegs_init l₁ (foldSegs l₂)
  unfold foldSegs at h ⊢
  rw [List.foldr_append]
  exact h

theorem foldSegs_cons_ne_nil (s : List Char) (rest : List (List Char)) :
    foldSegs (s :: rest) ≠ [] := by
  intro h
  exact List.noConfusion h

/-- A proper ancestor's rendered path extends to the full rendered path by a
separator and a suffix. -/
theorem ancestor_strict (segs : List (List Char)) (i : Nat)
    (hi : i + 1 < segs.length) :
    ∃ t, (pathOfSegs segs).data = (pathOfSegs (segs.take (i + 1))).data ++ '/' :: t := by
  have hne : segs ≠ [] := by
    intro h; rw [h] at hi; simp at hi
  have htne : segs.take (i + 1) ≠ [] := by
    intro h
    have hlen := congrArg List.length h
    rw [List.length_take] at hlen
    simp only [List.length_nil] at hlen
    omega
  have hdne : segs.drop (i + 1) ≠ [] := by
    intro h
    have hlen := congrArg List.length h
    rw [List.length_drop] at hlen
    simp only [List.length_nil] at hlen
    omega
  cases e : segs.drop (i + 1) with
  | nil => exact absurd e hdne
  | cons s rest =>
    refine ⟨s ++ foldSegs rest, ?_⟩
    rw [pathOfSegs_data, pathOfSegs_data]
    unfold renderSegs
    rw [if_neg hne, if_neg htne]
    conv_lhs => rw [← List.take_append_drop (i + 1) segs]
    rw [foldSegs_append, e]
    rfl

theorem normalize_of_segs (p : String) (segs : List (List Char))
    (h : normalizeSegs p = some segs) : normalize p = some (pathOfSegs segs) := by
  unfold normalize; rw [h]; rfl

theorem normalize_none (p : String) (h : normalizeSegs p = none) :
    normalize p = none := by
  unfold normalize; rw [h]; rfl

theorem existsPath_norm (fs : FS) (p np : String) (h : normalize p = some np) :
    existsPath fs p = (lookupNode fs np).isSome := by
  unfold existsPath; rw [h]

theorem existsPath_invalid (fs : FS) (p : String) (h : normalize p = none) :
    existsPath fs p = false := by
  unfold existsPath; rw [h]

theorem pathOfSegs_ne_root (segs : List (List Char)) (hne : segs ≠ [])
    (hv : ∀ s ∈ segs, validSeg s) : pathOfSegs segs ≠ "/" := by
  cases segs with
  | nil => exact absurd rfl hne
  | cons s rest =>
    intro h
    have hd := congrArg String.data h
    rw [pathOfSegs_data] at hd
    unfold renderSegs at hd
    rw [if_neg (by simp)] at hd
    have hroot : ("/" : String).data = ['/'] := rfl
    rw [hroot] at hd
    have hfold : foldSegs (s :: rest) = '/' :: (s ++ foldSegs rest) := rfl
    rw [hfold] at hd
    have htl : s ++ foldSegs rest = [] := by
      injection hd with hhd htl
    have hs : s = [] := (List.append_eq_nil.mp htl).1
    exact (hv s (by simp)).1 hs

theorem createFile_some (fs : FS) (p content : String) (segs : List (List Char))
    (h : normalizeSegs p = some segs) :
    createFile fs p content =
      if (lookupNode fs (pathOfSegs segs)).isSome then Except.error FsError.alreadyExists
      else Except.ok
        ((pathOfSegs segs, FSNode.file content) :: mkDirs fs (ancestorPaths segs)) := by
  unfold createFile; rw [h]

theorem createFile_none (fs : FS) (p content : String)
    (h : normalizeSegs p = none) :
    createFile fs p content = Except.error FsError.invalidPath := by
  unfold createFile; rw [h]

theorem createDirectory_some (fs : FS) (p : String) (segs : List (List Char))
    (h : normalizeSegs p = some segs) :
    createDirectory fs p =
      if (lookupNode fs (pathOfSegs segs)).isSome then Except.error FsError.alreadyExists
      else Except.ok
        ((pathOfSegs segs, FSNode.directory) :: mkDirs fs (ancestorPaths segs)) := by
  unfold createDirectory; rw [h]

theorem rename_some (fs : FS) (o n : String) (osegs nsegs : List (List Char))
    (ho : normalizeSegs o = some osegs) (hn : normalizeSegs n = some nsegs) :
    rename fs o n = renameChecked fs osegs nsegs := by
  unfold rename; rw [ho, hn]

theorem rename_none_left (fs : FS) (o n : String)
    (ho : normalizeSegs o = none) :
    rename fs o n = Except.error FsError.invalidPath := by
  unfold rename
  rw [ho]

theorem rename_none_right (fs : FS) (o n : String)
    (hn : normalizeSegs n = none) :
    rename fs o n = Except.error FsError.invalidPath := by
  unfold rename
  cases ho : normalizeSegs o with
  | none => rw [hn]
  | some osegs => rw [hn]

theorem readFile_norm (fs : FS) (p np : String) (h : normalize p = some np) :
    readFile fs p =
      (match lookupNode fs np with
       | none => Except.error FsError.notFound
       | some FSNode.directory => Except.error FsError.notAFile
       | some (FSNode.file c) => Except.ok c) := by
  unfold readFile; rw [h]

theorem deleteNode_some (fs : FS) (p : String) (segs : List (List Char))
    (h : normalizeSegs p = some segs) :
    deleteNode fs p =
      (if pathOfSegs segs = "/" then Except.error FsError.invalidPath
       else if (lookupNode fs (pathOfSegs segs)).isNone then Except.error FsError.notFound
       else Except.ok
        (fs.filter (fun e => decide (¬ underPath (pathOfSegs segs) e.1)))) := by
  unfold deleteNode; rw [h]

/-- C3: `createFile` creates all missing ancestor directories implicitly, so
that afterwards `exists` is true for every ancestor directory and for the new
file and `readFile` returns exactly the content passed in; when a node
already occupies the path it fails with `AlreadyExists` and the tree is
unchanged. -/
theorem spec_c3_createFile_ancestors :
    ∀ fs p c segs, normalizeSegs p = some segs →
      ((lookupNode fs (pathOfSegs segs) = none →
        ∃ fs', createFile fs p c = Except.ok fs' ∧
          (∀ a ∈ ancestorPaths segs, existsPath fs' a = true) ∧
          existsPath fs' (pathOfSegs segs) = true ∧
          readFile fs' p = Except.ok c) ∧
       ((lookupNode fs (pathOfSegs segs)).isSome →
        createFile fs p c = Except.error FsError.alreadyExists ∧
          applyOp fs (FsOp.opCreateFile p c) = fs)) := by
  intro fs p c segs hseg
  have hvalid : ∀ s ∈ segs, validSeg s := normalizeSegs_valid p segs hseg
  constructor
  · intro hnone
    have hx : (lookupNode fs (pathOfSegs segs)).isSome = false := by
      rw [hnone]; rfl
    refine ⟨(pathOfSegs segs, FSNode.file c) :: mkDirs fs (ancestorPaths segs), ?_, ?_, ?_, ?_⟩
    · rw [createFile_some fs p c segs hseg, if_neg (by rw [hx]; exact Bool.false_ne_true)]
    · intro a ha
      obtain ⟨i, hi, ha'⟩ := List.mem_map.mp ha
      subst ha'
      have hvt : ∀ s ∈ segs.take (i + 1), validSeg s :=
        fun s hs => hvalid s (List.take_subset _ _ hs)
      have hnn : normalize (pathOfSegs (segs.take (i + 1))) =
          some (pathOfSegs (segs.take (i + 1))) := by
        unfold normalize
        rw [normalizeSegs_pathOfSegs _ hvt]
        rfl
      rw [existsPath_norm _ _ _ hnn, lookupNode_cons]
      by_cases he : pathOfSegs segs = pathOfSegs (segs.take (i + 1))
      · rw [if_pos he]; rfl
      · rw [if_neg he]
        exact mkDirs_mem (ancestorPaths segs) fs _ (List.mem_map.mpr ⟨i, hi, rfl⟩)
    · have hnn : normalize (pathOfSegs segs) = some (pathOfSegs segs) := by
        unfold normalize
        rw [normalizeSegs_pathOfSegs _ hvalid]
        rfl
      rw [existsPath_norm _ _ _ hnn, lookupNode_cons, if_pos rfl]
      rfl
    · rw [readFile_norm _ p (pathOfSegs segs) (normalize_of_segs p segs hseg),
        lookupNode_cons, if_pos rfl]
  · intro hsome
    have h1 : createFile fs p c = Except.error FsError.alreadyExists := by
      rw [createFile_some fs p c segs hseg, if_pos hsome]
    refine ⟨h1, ?_⟩
    show (createFile fs p c).toOption.getD fs = fs
    rw [h1]
    rfl

/-- Witness for C3: creating `/a/b/c.txt` in the empty tree creates `/a` and
`/a/b` implicitly, and the new file reads back its content. -/
theorem spec_c3_createFile_ancestors_witness :
    existsPath [("/a/b/c.txt", FSNode.file "x"), ("/a/b", FSNode.directory),
        ("/a", FSNode.directory), ("/", FSNode.directory)] "/a" = true ∧
    existsPath [("/a/b/c.txt", FSNode.file "x"), ("/a/b", FSNode.directory),
        ("/a", FSNode.directory), ("/", FSNode.directory)] "/a/b" = true ∧
    existsPath [("/a/b/c.txt", FSNode.file "x"), ("/a/b", FSNode.directory),
        ("/a", FSNode.directory), ("/", FSNode.directory)] "/a/b/c.txt" = true ∧
    readFile [("/a/b/c.txt", FSNode.file "x"), ("/a/b", FSNode.directory),
        ("/a", FSNode.directory), ("/", FSNode.directory)] "/a/b/c.txt" = Except.ok "x" := by
  have h := (spec_c3_createFile_ancestors emptyFS "/a/b/c.txt" "x"
    [['a'], ['b'], ['c', '.', 't', 'x', 't']] (by decide)).1 (by decide)
  obtain ⟨fs', h1, h2, h3, h4⟩ := h
  have hcomp : createFile emptyFS "/a/b/c.txt" "x" =
      Except.ok [("/a/b/c.txt", FSNode.file "x"), ("/a/b", FSNode.directory),
        ("/a", FSNode.directory), ("/", FSNode.directory)] := by rfl
  rw [hcomp] at h1
  injection h1 with h1
  subst h1
  exact ⟨h2 "/a" (by decide), h2 "/a/b" (by decide), h3, h4⟩

theorem lookupSnap_cons (k : String) (v : SnapEntry) (rest : List (String × SnapEntry))
    (q : String) :
    lookupSnap ((k, v) :: rest) q = if k = q then some v else lookupSnap rest q := by
  unfold lookupSnap
  by_cases h : k = q <;> simp [List.find?_cons, h]

theorem lookupNode_snapMap (snap : List (String × SnapEntry)) (q : String) :
    lookupNode (snap.map (fun e => (e.1, nodeOfSnap e.2))) q =
      (lookupSnap snap q).map nodeOfSnap := by
  induction snap with
  | nil => rfl
  | cons e rest ih =>
    have he : e = (e.1, e.2) := rfl
    rw [he, List.map_cons, lookupNode_cons, lookupSnap_cons]
    by_cases h : e.1 = q
    · rw [if_pos h, if_pos h]; rfl
    · rw [if_neg h, if_neg h]; exact ih

theorem updateFile_norm (fs : FS) (p np c : String) (h : normalize p = some np) :
    updateFile fs p c =
      (match lookupNode fs np with
       | none => Except.error FsError.notFound
       | some FSNode.directory => Except.error FsError.notAFile
       | some (FSNode.file _) => Except.ok (updateEntry fs np (FSNode.file c))) := by
  unfold updateFile; rw [h]

theorem rootExists_emptyFS : rootExists emptyFS := rfl

theorem deserialize_root (snap : List (String × SnapEntry)) (fs : FS)
    (h : deserialize snap = Except.ok fs) : rootExists fs := by
  unfold deserialize at h
  by_cases hc : (lookupSnap snap "/" = some SnapEntry.sdir ∧
      snap.all (fun e => snapKeyOk snap e.1))
  · rw [if_pos hc] at h
    injection h with h
    subst h
    unfold rootExists
    rw [lookupNode_snapMap, hc.1]
    rfl
  · rw [if_neg hc] at h
    exact absurd h (by simp)

theorem rootExists_applyOp (fs : FS) (op : FsOp) (h : rootExists fs) :
    rootExists (applyOp fs op) := by
  have hroot : lookupNode fs "/" = some FSNode.directory := h
  cases op with
  | opCreateFile p c =>
    show rootExists ((createFile fs p c).toOption.getD fs)
    cases e : createFile fs p c with
    | error er => exact h
    | ok fs' =>
      cases eseg : normalizeSegs p with
      | none =>
        rw [createFile_none fs p c eseg] at e
        exact absurd e (by simp)
      | some segs =>
        rw [createFile_some fs p c segs eseg] at e
        by_cases hs : (lookupNode fs (pathOfSegs segs)).isSome = true
        · rw [if_pos hs] at e; exact absurd e (by simp)
        · rw [if_neg hs] at e
          injection e with e
          subst e
          show lookupNode ((pathOfSegs segs, FSNode.file c) ::
            mkDirs fs (ancestorPaths segs)) "/" = some FSNode.directory
          rw [lookupNode_cons]
          have hne : pathOfSegs segs ≠ "/" := by
            intro hcontr
            rw [hcontr, hroot] at hs
            exact hs rfl
          rw [if_neg hne]
          exact mkDirs_pres _ fs "/" _ hroot
  | opCreateDir p =>
    show rootExists ((createDirectory fs p).toOption.getD fs)
    cases e : createDirectory fs p with
    | error er => exact h
    | ok fs' =>
      cases eseg : normalizeSegs p with
      | none =>
        unfold createDirectory at e
        rw [eseg] at e
        exact absurd e (by simp)
      | some segs =>
        rw [createDirectory_some fs p segs eseg] at e
        by_cases hs : (lookupNode fs (pathOfSegs segs)).isSome = true
        · rw [if_pos hs] at e; exact absurd e (by simp)
        · rw [if_neg hs] at e
          injection e with e
          subst e
          show lookupNode ((pathOfSegs segs, FSNode.directory) ::
            mkDirs fs (ancestorPaths segs)) "/" = some FSNode.directory
          rw [lookupNode_cons]
          have hne : pathOfSegs segs ≠ "/" := by
            intro hcontr
            rw [hcontr, hroot] at hs
            exact hs rfl
          rw [if_neg hne]
          exact mkDirs_pres _ fs "/" _ hroot
  | opUpdateFile p c =>
    show rootExists ((updateFile fs p c).toOption.getD fs)
    cases e : updateFile fs p c with
    | error er => exact h
    | ok fs' =>
      cases en : normalize p with
      | none =>
        unfold updateFile at e
        rw [en] at e
        exact absurd e (by simp)
      | some np =>
        rw [updateFile_norm fs p np c en] at e
        cases el : lookupNode fs np with
        | none => rw [el] at e; exact absurd e (by simp)
        | some nd =>
          cases nd with
          | directory => rw [el] at e; exact absurd e (by simp)
          | file c0 =>
            rw [el] at e
            injection e with e
            subst e
            show lookupNode (updateEntry fs np (FSNode.file c)) "/" = some FSNode.directory
            have hne : ("/" : String) ≠ np := by
              intro hcontr
              rw [← hcontr, hroot] at el
              exact FSNode.noConfusion (Option.some.inj el)
            rw [lookupNode_updateEntry_ne fs np _ "/" hne]
            exact hroot
  | opRename o n =>
    show rootExists ((rename fs o n).toOption.getD fs)
    cases e : rename fs o n with
    | error er => exact h
    | ok fs' =>
      cases eo : normalizeSegs o with
      | none => rw [rename_none_left fs o n eo] at e; exact absurd e (by simp)
      | some osegs =>
        cases en : normalizeSegs n with
        | none => rw [rename_none_right fs o n en] at e; exact absurd e (by simp)
        | some nsegs =>
          rw [rename_some fs o n osegs nsegs eo en] at e
          unfold renameChecked at e
          by_cases h1 : pathOfSegs osegs = "/"
          · rw [if_pos h1] at e; exact absurd e (by simp)
          · rw [if_neg h1] at e
            by_cases h2 : (lookupNode fs (pathOfSegs osegs)).isNone = true
            · rw [if_pos h2] at e; exact absurd e (by simp)
            · rw [if_neg h2] at e
              by_cases h3 : (lookupNode fs (pathOfSegs nsegs)).isSome = true
              · rw [if_pos h3] at e; exact absurd e (by simp)
              · rw [if_neg h3] at e
                injection e with e
                subst e
                have hopdata : (pathOfSegs osegs).data ≠ [] := by
                  rw [pathOfSegs_data]; exact renderSegs_ne_nil osegs
                have hnotunder : ¬ underPath (pathOfSegs osegs) "/" :=
                  not_underPath_root _ hopdata h1
                have hq : renameKey (pathOfSegs osegs) (pathOfSegs nsegs) "/" = "/" := by
                  unfold renameKey; rw [if_neg hnotunder]
                have hnproot : pathOfSegs nsegs ≠ "/" := by
                  intro hcontr
                  rw [hcontr, hroot] at h3
                  exact h3 rfl
                have hnpdata : (pathOfSegs nsegs).data ≠ [] := by
                  rw [pathOfSegs_data]; exact renderSegs_ne_nil nsegs
                have hinj : ∀ k',
                    (lookupNode (mkDirs fs (ancestorPaths nsegs)) k').isSome →
                    renameKey (pathOfSegs osegs) (pathOfSegs nsegs) k' = "/" → k' = "/" := by
                  intro k' _ hk'
                  unfold renameKey at hk'
                  by_cases hu : underPath (pathOfSegs osegs) k'
                  · rw [if_pos hu] at hk'
                    have hu2 := underPath_rekey (pathOfSegs nsegs) hu
                    rw [hk'] at hu2
                    exact absurd hu2 (not_underPath_root _ hnpdata hnproot)
                  · rw [if_neg hu] at hk'; exact hk'
                show lookupNode (keymap (renameKey (pathOfSegs osegs) (pathOfSegs nsegs))
                  (mkDirs fs (ancestorPaths nsegs))) "/" = some FSNode.directory
                rw [lookupNode_keymap_fixed _ _ "/" hq hinj]
                exact mkDirs_pres _ fs "/" _ hroot
  | opDelete p =>
    show rootExists ((deleteNode fs p).toOption.getD fs)
    cases e : deleteNode fs p with
    | error er => exact h
    | ok fs' =>
      cases es : normalizeSegs p with
      | none =>
        unfold deleteNode at e
        rw [es] at e
        exact absurd e (by simp)
      | some segs =>
        rw [deleteNode_some fs p segs es] at e
        by_cases h1 : pathOfSegs segs = "/"
        · rw [if_pos h1] at e; exact absurd e (by simp)
        · rw [if_neg h1] at e
          by_cases h2 : (lookupNode fs (pathOfSegs segs)).isNone = true
          · rw [if_pos h2] at e; exact absurd e (by simp)
          · rw [if_neg h2] at e
            injection e with e
            subst e
            have hdata : (pathOfSegs segs).data ≠ [] := by
              rw [pathOfSegs_data]; exact renderSegs_ne_nil segs
            have hnu : ¬ underPath (pathOfSegs segs) "/" :=
              not_underPath_root _ hdata h1
            show lookupNode
              (fs.filter (fun e => decide (¬ underPath (pathOfSegs segs) e.1))) "/" =
              some FSNode.directory
            rw [lookupNode_filter_keep
              (fun q => decide (¬ underPath (pathOfSegs segs) q)) fs "/"
              (decide_eq_true hnu)]
            exact hroot

theorem rootExists_applyOps (ops : List FsOp) :
    ∀ fs, rootExists fs → rootExists (applyOps fs ops) := by
  induction ops with
  | nil => intro fs h; exact h
  | cons op rest ih =>
    intro fs h
    exact ih (applyOp fs op) (rootExists_applyOp fs op h)

theorem deleteNode_root (fs : FS) :
    deleteNode fs "/" = Except.error FsError.invalidPath := by
  have hs : normalizeSegs "/" = some [] := by decide
  rw [deleteNode_some fs "/" [] hs, if_pos (by decide)]

/-- C5: `rename` fails whenever the source does not exist, or the destination
already exists, or the source is the root; and every failing `rename` or
`delete` leaves the tree exactly as it was (all-or-nothing mutation). -/
theorem spec_c5_rename_delete_failure :
    (∀ fs o n, existsPath fs o = false → isErr (rename fs o n) = true) ∧
    (∀ fs o n, existsPath fs n = true → isErr (rename fs o n) = true) ∧
    (∀ fs o n, normalize o = some "/" → isErr (rename fs o n) = true) ∧
    (∀ fs o n, isErr (rename fs o n) = true → applyOp fs (FsOp.opRename o n) = fs) ∧
    (∀ fs p, isErr (deleteNode fs p) = true → applyOp fs (FsOp.opDelete p) = fs) := by
  refine ⟨?_, ?_, ?_, ?_, ?_⟩
  · intro fs o n h
    cases eo : normalizeSegs o with
    | none => rw [rename_none_left fs o n eo]; rfl
    | some osegs =>
      cases en : normalizeSegs n with
      | none => rw [rename_none_right fs o n en]; rfl
      | some nsegs =>
        rw [rename_some fs o n osegs nsegs eo en]
        unfold renameChecked
        have hx : (lookupNode fs (pathOfSegs osegs)).isSome = false := by
          rw [← existsPath_norm fs o _ (normalize_of_segs o osegs eo)]
          exact h
        by_cases h1 : pathOfSegs osegs = "/"
        · rw [if_pos h1]; rfl
        · rw [if_neg h1]
          have hnone : lookupNode fs (pathOfSegs osegs) = none := by
            cases el : lookupNode fs (pathOfSegs osegs) with
            | none => rfl
            | some v => rw [el] at hx; exact absurd hx (by simp)
          rw [if_pos (by rw [hnone]; rfl)]
          rfl
  · intro fs o n h
    cases eo : normalizeSegs o with
    | none => rw [rename_none_left fs o n eo]; rfl
    | some osegs =>
      cases en : normalizeSegs n with
      | none => rw [rename_none_right fs o n en]; rfl
      | some nsegs =>
        rw [rename_some fs o n osegs nsegs eo en]
        unfold renameChecked
        have hx : (lookupNode fs (pathOfSegs nsegs)).isSome = true := by
          rw [← existsPath_norm fs n _ (normalize_of_segs n nsegs en)]
          exact h
        by_cases h1 : pathOfSegs osegs = "/"
        · rw [if_pos h1]; rfl
        · rw [if_neg h1]
          by_cases h2 : (lookupNode fs (pathOfSegs osegs)).isNone = true
          · rw [if_pos h2]; rfl
          · rw [if_neg h2, if_pos hx]; rfl
  · intro fs o n h
    unfold normalize at h
    cases eo : normalizeSegs o with
    | none => rw [eo] at h; exact absurd h (by simp)
    | some osegs =>
      rw [eo] at h
      have hroot : pathOfSegs osegs = "/" := by
        have := Option.some.inj h
        exact this
      cases en : normalizeSegs n with
      | none => rw [rename_none_right fs o n en]; rfl
      | some nsegs =>
        rw [rename_some fs o n osegs nsegs eo en]
        unfold renameChecked
        rw [if_pos hroot]
        rfl
  · intro fs o n h
    show (rename fs o n).toOption.getD fs = fs
    cases e : rename fs o n with
    | error er => rfl
    | ok fs' => rw [e] at h; exact absurd h (by simp [isErr])
  · intro fs p h
    show (deleteNode fs p).toOption.getD fs = fs
    cases e : deleteNode fs p with
    | error er => rfl
    | ok fs' => rw [e] at h; exact absurd h (by simp [isErr])

/-- Witness for C5: renaming a missing source fails and leaves the tree
unchanged, and deleting the root fails and leaves the tree unchanged. -/
theorem spec_c5_rename_delete_failure_witness :
    isErr (rename emptyFS "/missing.txt" "/renamed.txt") = true ∧
    applyOp emptyFS (FsOp.opRename "/missing.txt" "/renamed.txt") = emptyFS ∧
    applyOp emptyFS (FsOp.opDelete "/") = emptyFS := by
  have h1 := spec_c5_rename_delete_failure.1 emptyFS "/missing.txt" "/renamed.txt" (by decide)
  have h4 := spec_c5_rename_delete_failure.2.2.2.1 emptyFS "/missing.txt" "/renamed.txt" h1
  have h5 := spec_c5_rename_delete_failure.2.2.2.2 emptyFS "/" (by decide)
  exact ⟨h1, h4, h5⟩

/-- C6: in every state reachable from a freshly created or deserialized file
system by any sequence of operations, the root directory exists, deleting the
root fails, and `exists("/")` stays true. -/
theorem spec_c6_root_invariant :
    ∀ init ops, (init = emptyFS ∨ ∃ snap, deserialize snap = Except.ok init) →
      rootExists (applyOps init ops) ∧
      isErr (deleteNode (applyOps init ops) "/") = true ∧
      existsPath (applyOps init ops) "/" = true := by
  intro init ops hinit
  have h0 : rootExists init := by
    rcases hinit with h | ⟨snap, h⟩
    · rw [h]; exact rootExists_emptyFS
    · exact deserialize_root snap init h
  have hr := rootExists_applyOps ops init h0
  refine ⟨hr, ?_, ?_⟩
  · rw [deleteNode_root]; rfl
  · have hn : normalize "/" = some "/" := by decide
    rw [existsPath_norm _ _ _ hn, hr]
    rfl

/-- Witness for C6 after creating a file and attempting to delete the root. -/
theorem spec_c6_root_invariant_witness :
    rootExists (applyOps emptyFS
      [FsOp.opCreateFile "/a/b.txt" "hi", FsOp.opDelete "/"]) ∧
    isErr (deleteNode (applyOps emptyFS
      [FsOp.opCreateFile "/a/b.txt" "hi", FsOp.opDelete "/"]) "/") = true ∧
    existsPath (applyOps emptyFS
      [FsOp.opCreateFile "/a/b.txt" "hi", FsOp.opDelete "/"]) "/" = true :=
  spec_c6_root_invariant emptyFS
    [FsOp.opCreateFile "/a/b.txt" "hi", FsOp.opDelete "/"] (Or.inl rfl)

theorem lookupNode_isSome_iff (fs : FS) (k : String) :
    (lookupNode fs k).isSome = true ↔ ∃ v, (k, v) ∈ fs := by
  induction fs with
  | nil => simp [lookupNode]
  | cons e fs ih =>
    have he : e = (e.1, e.2) := rfl
    rw [he, lookupNode_cons]
    by_cases h : e.1 = k
    · rw [if_pos h]
      constructor
      · intro _
        exact ⟨e.2, by rw [← h]; simp⟩
      · intro _; rfl
    · rw [if_neg h, ih]
      constructor
      · rintro ⟨v, hv⟩
        exact ⟨v, by simp [hv]⟩
      · rintro ⟨v, hv⟩
        rcases List.mem_cons.mp hv with h' | h'
        · exfalso
          have h1 : k = e.1 := congrArg Prod.fst h'
          exact h h1.symm
        · exact ⟨v, h'⟩

theorem ancestorPaths_mem_strict (nsegs : List (List Char)) (a : String)
    (ha : a ∈ ancestorPaths nsegs) :
    ∃ t, (pathOfSegs nsegs).data = a.data ++ '/' :: t := by
  obtain ⟨i, hi, ha'⟩ := List.mem_map.mp ha
  have hir := List.mem_range.mp hi
  have h2 : i + 1 < nsegs.length := by omega
  rw [← ha']
  exact ancestor_strict nsegs i h2

theorem ancestor_not_under_np (nsegs : List (List Char)) (a : String)
    (ha : a ∈ ancestorPaths nsegs) :
    ¬ underPath (pathOfSegs nsegs) a := by
  obtain ⟨t, ht⟩ := ancestorPaths_mem_strict nsegs a ha
  intro hu
  rcases underPath_elim hu with h' | ⟨t₂, ht₂⟩
  · rw [h'] at ht
    have hl := congrArg List.length ht
    simp only [List.length_append, List.length_cons] at hl
    omega
  · rw [ht₂] at ht
    have hl := congrArg List.length ht
    simp only [List.length_append, List.length_cons] at hl
    omega

theorem ancestor_under_op_imp (nsegs : List (List Char)) (op' a : String)
    (ha : a ∈ ancestorPaths nsegs) (hu : underPath op' a) :
    a = op' ∨ underPath op' (pathOfSegs nsegs) := by
  rcases underPath_elim hu with h' | ⟨t₂, ht₂⟩
  · exact Or.inl h'
  · obtain ⟨t, ht⟩ := ancestorPaths_mem_strict nsegs a ha
    right
    refine underPath_intro_cons op' (pathOfSegs nsegs) (t₂ ++ '/' :: t) ?_
    rw [ht, ht₂, List.append_assoc]
    rfl

/-- Counterexample for C4 as stated: `/a` is an existing directory and `/a/b`
a non-existing destination, yet after the (successful) rename the path
`/a/b` — which has the old path `/a` as a prefix — exists, so it is not true
that no path having the old path as a prefix remains. -/
theorem spec_c4_rename_directory_counterexample :
    isErr (rename [("/a", FSNode.directory), ("/", FSNode.directory)] "/a" "/a/b") = false ∧
    existsPath [("/a", FSNode.directory), ("/", FSNode.directory)] "/a/b" = false ∧
    underPath "/a" "/a/b" ∧
    rename [("/a", FSNode.directory), ("/", FSNode.directory)] "/a" "/a/b" =
      Except.ok [("/a/b", FSNode.directory), ("/", FSNode.directory)] ∧
    existsPath [("/a/b", FSNode.directory), ("/", FSNode.directory)] "/a/b" = true := by
  refine ⟨by rfl, by decide, by decide, by rfl, by decide⟩

/-- C4 (amended): for every existing directory `oldPath` and non-existing
`newPath` such that `newPath` is not the old path or one of its descendants
and — as holds in any well-formed tree — no existing path lies under
`newPath`, a successful rename re-keys every path that had `oldPath` as a
prefix to the corresponding path with the prefix replaced by `newPath`, with
identical content; no path having `oldPath` as a prefix remains; and every
ancestor directory of `newPath` exists afterwards. -/
theorem spec_c4_rename_directory :
    ∀ fs o n osegs nsegs fs',
      normalizeSegs o = some osegs → normalizeSegs n = some nsegs →
      ¬ underPath (pathOfSegs osegs) (pathOfSegs nsegs) →
      (∀ e ∈ fs, ¬ underPath (pathOfSegs nsegs) e.1) →
      rename fs o n = Except.ok fs' →
      ((∀ k v, lookupNode fs k = some v → underPath (pathOfSegs osegs) k →
          lookupNode fs' (rekeyPath (pathOfSegs osegs) (pathOfSegs nsegs) k) = some v) ∧
       (∀ k, underPath (pathOfSegs osegs) k → lookupNode fs' k = none) ∧
       (∀ a ∈ ancestorPaths nsegs, (lookupNode fs' a).isSome = true)) := by
  intro fs o n osegs nsegs fs' ho hn hon hnex hok
  rw [rename_some fs o n osegs nsegs ho hn] at hok
  unfold renameChecked at hok
  by_cases h1 : pathOfSegs osegs = "/"
  · rw [if_pos h1] at hok; exact absurd hok (by simp)
  rw [if_neg h1] at hok
  by_cases h2 : (lookupNode fs (pathOfSegs osegs)).isNone = true
  · rw [if_pos h2] at hok; exact absurd hok (by simp)
  rw [if_neg h2] at hok
  by_cases h3 : (lookupNode fs (pathOfSegs nsegs)).isSome = true
  · rw [if_pos h3] at hok; exact absurd hok (by simp)
  rw [if_neg h3] at hok
  injection hok with hok
  subst hok
  have hopSome : (lookupNode fs (pathOfSegs osegs)).isSome = true := by
    cases el : lookupNode fs (pathOfSegs osegs) with
    | none => rw [el] at h2; exact absurd rfl h2
    | some v => rfl
  have hexSome : ∀ k, (lookupNode fs k).isSome = true →
      ¬ underPath (pathOfSegs nsegs) k := by
    intro k hk
    obtain ⟨v, hv⟩ := (lookupNode_isSome_iff fs k).mp hk
    exact hnex (k, v) hv
  have hno : ¬ underPath (pathOfSegs nsegs) (pathOfSegs osegs) := hexSome _ hopSome
  have hdisj := underPath_disjoint hon hno
  have hfsmNotNp : ∀ k, (lookupNode (mkDirs fs (ancestorPaths nsegs)) k).isSome = true →
      ¬ underPath (pathOfSegs nsegs) k := by
    intro k hk
    rcases mkDirs_keys _ fs k hk with h' | h'
    · exact hexSome k h'
    · exact ancestor_not_under_np nsegs k h'
  have hancNotOp : ∀ a ∈ ancestorPaths nsegs, ¬ underPath (pathOfSegs osegs) a := by
    intro a ha hu
    rcases ancestor_under_op_imp nsegs (pathOfSegs osegs) a ha hu with h' | h'
    · obtain ⟨t, ht⟩ := ancestorPaths_mem_strict nsegs a ha
      rw [h'] at ht
      exact hon (underPath_intro_cons _ _ t ht)
    · exact hon h'
  have hinjGen : ∀ k, underPath (pathOfSegs osegs) k →
      ∀ k', (lookupNode (mkDirs fs (ancestorPaths nsegs)) k').isSome = true →
        renameKey (pathOfSegs osegs) (pathOfSegs nsegs) k' =
          renameKey (pathOfSegs osegs) (pathOfSegs nsegs) k → k' = k := by
    intro k hku k' hk' heq
    unfold renameKey at heq
    rw [if_pos hku] at heq
    by_cases hu' : underPath (pathOfSegs osegs) k'
    · rw [if_pos hu'] at heq
      exact rekeyPath_inj _ hu' hku heq
    · rw [if_neg hu'] at heq
      exfalso
      have hun : underPath (pathOfSegs nsegs) k' := by
        rw [heq]
        exact underPath_rekey _ hku
      exact hfsmNotNp k' hk' hun
  refine ⟨?_, ?_, ?_⟩
  · intro k v hkv hku
    have hfsm : lookupNode (mkDirs fs (ancestorPaths nsegs)) k = some v :=
      mkDirs_pres _ fs k v hkv
    have hm := lookupNode_keymap_mapped
      (renameKey (pathOfSegs osegs) (pathOfSegs nsegs))
      (mkDirs fs (ancestorPaths nsegs)) k v hfsm
      (fun k' h' he => hinjGen k hku k' h' he)
    have hrk : renameKey (pathOfSegs osegs) (pathOfSegs nsegs) k =
        rekeyPath (pathOfSegs osegs) (pathOfSegs nsegs) k := by
      unfold renameKey; rw [if_pos hku]
    rw [hrk] at hm
    exact hm
  · intro k hku
    apply lookupNode_keymap_none
    intro e he hcontr
    have hkey : (lookupNode (mkDirs fs (ancestorPaths nsegs)) e.1).isSome = true :=
      (lookupNode_isSome_iff _ _).mpr ⟨e.2, he⟩
    unfold renameKey at hcontr
    by_cases hu : underPath (pathOfSegs osegs) e.1
    · rw [if_pos hu] at hcontr
      have hnp : underPath (pathOfSegs nsegs) k := by
        rw [← hcontr]
        exact underPath_rekey _ hu
      exact hdisj k hku hnp
    · rw [if_neg hu] at hcontr
      rw [hcontr] at hu
      exact hu hku
  · intro a ha
    have hfsm : (lookupNode (mkDirs fs (ancestorPaths nsegs)) a).isSome = true :=
      mkDirs_mem _ fs a ha
    have hfix : renameKey (pathOfSegs osegs) (pathOfSegs nsegs) a = a := by
      unfold renameKey
      rw [if_neg (hancNotOp a ha)]
    have hi := lookupNode_keymap_isSome
      (renameKey (pathOfSegs osegs) (pathOfSegs nsegs)) _ a hfsm
    rw [hfix] at hi
    exact hi

/-- Witness for C4 (amended): renaming directory `/src` to `/app` moves
`/src/index.ts` to `/app/index.ts` with identical content and removes every
`/src`-prefixed path. -/
theorem spec_c4_rename_directory_witness :
    lookupNode [("/app/index.ts", FSNode.file "content"), ("/app", FSNode.directory),
        ("/", FSNode.directory)] "/app/index.ts" = some (FSNode.file "content") ∧
    lookupNode [("/app/index.ts", FSNode.file "content"), ("/app", FSNode.directory),
        ("/", FSNode.directory)] "/src/index.ts" = none ∧
    lookupNode [("/app/index.ts", FSNode.file "content"), ("/app", FSNode.directory),
        ("/", FSNode.directory)] "/src" = none := by
  have h := spec_c4_rename_directory
    [("/src/index.ts", FSNode.file "content"), ("/src", FSNode.directory),
      ("/", FSNode.directory)]
    "/src" "/app" [['s', 'r', 'c']] [['a', 'p', 'p']]
    [("/app/index.ts", FSNode.file "content"), ("/app", FSNode.directory),
      ("/", FSNode.directory)]
    (by decide) (by decide) (by decide) (by decide) (by rfl)
  exact ⟨h.1 "/src/index.ts" (FSNode.file "content") (by decide) (by decide),
    h.2.1 "/src/index.ts" (by decide), h.2.1 "/src" (by decide)⟩

/-! The str_replace_editor tool.

Modelled from the spec: the implementation of the file-editing tool of spec
section 6 (commands `str_replace` and `insert`) is absent from the provided
sources; behaviour follows the spec and the test suite
`src/lib/tools/__tests__/str-replace.test.ts`. -/

/-- Fuelled splitter: split a character list at every non-overlapping
occurrence of `o`, scanning left to right; the fuel only bounds recursion
depth and is irrelevant once it covers the input length. -/
def splitGo (o : List Char) : Nat → List Char → List (List Char)
  | _, [] => [[]]
  | 0, s => [s]
  | fuel + 1, c :: cs =>
    if o ≠ [] ∧ o <+: (c :: cs) then
      [] :: splitGo o fuel ((c :: cs).drop o.length)
    else
      match splitGo o fuel cs with
      | [] => [[c]]
      | p :: ps => (c :: p) :: ps

/-- Split a character list at every non-overlapping occurrence of `o`,
scanning left to right (as JavaScript `String.split` on a non-empty
separator); with an empty `o` the whole input is one part. -/
def splitOnSub (o s : List Char) : List (List Char) :=
  splitGo o s.length s

/-- Join parts with a separator (as JavaScript `Array.join`). -/
def joinWith (sep : List Char) : List (List Char) → List Char
  | [] => []
  | [p] => p
  | p :: ps => p ++ sep ++ joinWith sep ps

theorem splitGo_nil (o : List Char) (fuel : Nat) : splitGo o fuel [] = [[]] := by
  cases fuel <;> rfl

theorem splitGo_succ (o : List Char) (fuel : Nat) (c : Char) (cs : List Char) :
    splitGo o (fuel + 1) (c :: cs) =
      if o ≠ [] ∧ o <+: (c :: cs) then
        [] :: splitGo o fuel ((c :: cs).drop o.length)
      else
        match splitGo o fuel cs with
        | [] => [[c]]
        | p :: ps => (c :: p) :: ps := rfl

theorem splitGo_irrel (o : List Char) :
    ∀ f₁ s f₂, s.length ≤ f₁ → s.length ≤ f₂ → splitGo o f₁ s = splitGo o f₂ s := by
  intro f₁
  induction f₁ with
  | zero =>
    intro s f₂ h₁ _
    have : s = [] := List.eq_nil_of_length_eq_zero (Nat.le_zero.mp h₁)
    subst this
    rw [splitGo_nil, splitGo_nil]
  | succ k ih =>
    intro s f₂ h₁ h₂
    cases s with
    | nil => rw [splitGo_nil, splitGo_nil]
    | cons c cs =>
      cases f₂ with
      | zero =>
        exfalso
        simp only [List.length_cons] at h₂
        omega
      | succ m =>
        rw [splitGo_succ, splitGo_succ]
        simp only [List.length_cons] at h₁ h₂
        by_cases h : o ≠ [] ∧ o <+: (c :: cs)
        · rw [if_pos h, if_pos h]
          have hol : 0 < o.length := List.length_pos.mpr h.1
          have hd : ((c :: cs).drop o.length).length ≤ k := by
            simp only [List.length_drop, List.length_cons]
            omega
          have hd2 : ((c :: cs).drop o.length).length ≤ m := by
            simp only [List.length_drop, List.length_cons]
            omega
          rw [ih ((c :: cs).drop o.length) m hd hd2]
        · rw [if_neg h, if_neg h]
          rw [ih cs m (by omega) (by omega)]

theorem splitOnSub_nil (o : List Char) : splitOnSub o [] = [[]] := rfl

theorem splitOnSub_cons (o : List Char) (c : Char) (cs : List Char) :
    splitOnSub o (c :: cs) =
      if o ≠ [] ∧ o <+: (c :: cs) then
        [] :: splitOnSub o ((c :: cs).drop o.length)
      else
        match splitOnSub o cs with
        | [] => [[c]]
        | p :: ps => (c :: p) :: ps := by
  show splitGo o (c :: cs).length (c :: cs) = _
  have hlen : (c :: cs).length = cs.length + 1 := rfl
  rw [hlen, splitGo_succ]
  by_cases h : o ≠ [] ∧ o <+: (c :: cs)
  · rw [if_pos h, if_pos h]
    have hol : 0 < o.length := List.length_pos.mpr h.1
    have hd : ((c :: cs).drop o.length).length ≤ cs.length := by
      simp only [List.length_drop, List.length_cons]
      omega
    rw [splitGo_irrel o cs.length ((c :: cs).drop o.length)
      ((c :: cs).drop o.length).length hd (Nat.le_refl _)]
    rfl
  · rw [if_neg h, if_neg h]
    rfl

theorem splitOnSub_ne_nil (o : List Char) (s : List Char) : splitOnSub o s ≠ [] := by
  cases s with
  | nil => rw [splitOnSub_nil]; simp
  | cons c cs =>
    rw [splitOnSub_cons]
    by_cases h : o ≠ [] ∧ o <+: (c :: cs)
    · rw [if_pos h]; simp
    · rw [if_neg h]
      cases e : splitOnSub o cs <;> simp

theorem joinWith_pair (sep p q : List Char) (ps : List (List Char)) :
    joinWith sep (p :: q :: ps) = p ++ sep ++ joinWith sep (q :: ps) := rfl

theorem joinWith_splitOnSub_fuel (o : List Char) :
    ∀ k s, s.length ≤ k → joinWith o (splitOnSub o s) = s := by
  intro k
  induction k with
  | zero =>
    intro s hs
    have hnil : s = [] := List.eq_nil_of_length_eq_zero (Nat.le_zero.mp hs)
    subst hnil
    rw [splitOnSub_nil]
    rfl
  | succ k ih =>
    intro s hs
    cases s with
    | nil => rw [splitOnSub_nil]; rfl
    | cons c cs =>
      rw [splitOnSub_cons]
      by_cases h : o ≠ [] ∧ o <+: (c :: cs)
      · rw [if_pos h]
        have hne := splitOnSub_ne_nil o ((c :: cs).drop o.length)
        cases e : splitOnSub o ((c :: cs).drop o.length) with
        | nil => exact absurd e hne
        | cons p ps =>
          have hrest : ((c :: cs).drop o.length).length ≤ k := by
            have h1 : 0 < o.length := List.length_pos.mpr h.1
            simp only [List.length_drop, List.length_cons]
            simp only [List.length_cons] at hs
            omega
          have hih := ih ((c :: cs).drop o.length) hrest
          rw [e] at hih
          show ([] : List Char) ++ o ++ joinWith o (p :: ps) = c :: cs
          rw [hih]
          obtain ⟨u, hu⟩ := h.2
          rw [← hu, List.drop_left]
          simp
      · rw [if_neg h]
        have hne := splitOnSub_ne_nil o cs
        cases e : splitOnSub o cs with
        | nil => exact absurd e hne
        | cons p ps =>
          have hih := ih cs (by simp only [List.length_cons] at hs; omega)
          rw [e] at hih
          show joinWith o ((c :: p) :: ps) = c :: cs
          cases ps with
          | nil =>
            have hp : p = cs := hih
            show c :: p = c :: cs
            rw [hp]
          | cons q qs =>
            have hp : p ++ o ++ joinWith o (q :: qs) = cs := hih
            show c :: (p ++ o ++ joinWith o (q :: qs)) = c :: cs
            rw [hp]

theorem joinWith_splitOnSub (o s : List Char) :
    joinWith o (splitOnSub o s) = s :=
  joinWith_splitOnSub_fuel o s.length s (Nat.le_refl _)

theorem splitOnSub_no_occurrence (o : List Char) :
    ∀ s, (∀ pre post, s ≠ pre ++ o ++ post) → splitOnSub o s = [s] := by
  intro s
  induction s with
  | nil => intro _; exact splitOnSub_nil o
  | cons c cs ih =>
    intro h
    rw [splitOnSub_cons]
    have hnp : ¬ (o ≠ [] ∧ o <+: (c :: cs)) := by
      rintro ⟨hne, u, hu⟩
      exact h [] u (by rw [← hu]; simp)
    rw [if_neg hnp]
    rw [ih (fun pre post hcontr => h (c :: pre) post (by rw [hcontr]; rfl))]

theorem splitOnSub_occurrence (o : List Char) (hne : o ≠ []) :
    ∀ pre post s, s = pre ++ o ++ post → 2 ≤ (splitOnSub o s).length := by
  intro pre
  induction pre with
  | nil =>
    intro post s hs
    cases o with
    | nil => exact absurd rfl hne
    | cons oc orest =>
      have hs' : s = oc :: (orest ++ post) := by rw [hs]; rfl
      subst hs'
      rw [splitOnSub_cons]
      rw [if_pos ⟨hne, ⟨post, rfl⟩⟩]
      have hpos := List.length_pos.mpr
        (splitOnSub_ne_nil (oc :: orest) ((oc :: (orest ++ post)).drop (oc :: orest).length))
      simp only [List.length_cons] at hpos ⊢
      omega
  | cons a pre' ih =>
    intro post s hs
    have hs' : s = a :: (pre' ++ o ++ post) := by rw [hs]; rfl
    subst hs'
    rw [splitOnSub_cons]
    by_cases h : o ≠ [] ∧ o <+: (a :: (pre' ++ o ++ post))
    · rw [if_pos h]
      have hpos := List.length_pos.mpr
        (splitOnSub_ne_nil o ((a :: (pre' ++ o ++ post)).drop o.length))
      simp only [List.length_cons] at hpos ⊢
      omega
    · rw [if_neg h]
      have hrec := ih post (pre' ++ o ++ post) rfl
      cases e : splitOnSub o (pre' ++ o ++ post) with
      | nil => exact absurd e (splitOnSub_ne_nil o _)
      | cons p ps =>
        rw [e] at hrec
        simp only [List.length_cons] at hrec ⊢
        omega

/-- The file case of the `str_replace` command. -/
def strReplaceFile (fs : FS) (p np c : String) (old_str new_str : Option String) :
    String × FS :=
  if old_str.getD "" = "" ∨ (splitOnSub (old_str.getD "").data c.data).length - 1 = 0 then
    ("Error: String not found in file: \"" ++ old_str.getD "" ++ "\"", fs)
  else
    ("Replaced " ++ toString ((splitOnSub (old_str.getD "").data c.data).length - 1) ++
      " occurrence(s) of the string in " ++ p,
     updateEntry fs np (FSNode.file (String.mk
       (joinWith (new_str.getD "").data (splitOnSub (old_str.getD "").data c.data)))))

/-- Modelled from the spec: the `str_replace` command — replaces all literal
occurrences of an exact substring; fails if zero occurrences (an empty or
omitted `old_str` counts as not found) or if the target is a directory. -/
def strReplaceCmd (fs : FS) (p : String) (old_str new_str : Option String) :
    String × FS :=
  match normalize p with
  | none => ("Error: File not found: " ++ p, fs)
  | some np =>
    match lookupNode fs np with
    | none => ("Error: File not found: " ++ p, fs)
    | some FSNode.directory => ("Error: Cannot edit a directory: " ++ p, fs)
    | some (FSNode.file c) => strReplaceFile fs p np c old_str new_str

/-- The file case of the `insert` command. -/
def insertFile (fs : FS) (p np c : String) (insert_line : Option Nat)
    (new_str : Option String) : String × FS :=
  if (splitOnSub ['\n'] c.data).length < insert_line.getD 0 then
    ("Error: Invalid line number: " ++ toString (insert_line.getD 0) ++ ". File has " ++
      toString (splitOnSub ['\n'] c.data).length ++ " lines.", fs)
  else
    ("Text inserted at line " ++ toString (insert_line.getD 0) ++ " in " ++ p,
     updateEntry fs np (FSNode.file (String.mk
       (joinWith ['\n'] ((splitOnSub ['\n'] c.data).take (insert_line.getD 0) ++
         (new_str.getD "").data :: (splitOnSub ['\n'] c.data).drop (insert_line.getD 0))))))

/-- Modelled from the spec: the `insert` command — inserts `new_str` as a new
line at the 0-based position `insert_line` of the line list (0 places it
before the first line, the line count appends at the end); an out-of-range
line number is an error naming the actual line count. -/
def insertCmd (fs : FS) (p : String) (insert_line : Option Nat) (new_str : Option String) :
    String × FS :=
  match normalize p with
  | none => ("Error: File not found: " ++ p, fs)
  | some np =>
    match lookupNode fs np with
    | none => ("Error: File not found: " ++ p, fs)
    | some FSNode.directory => ("Error: Cannot edit a directory: " ++ p, fs)
    | some (FSNode.file c) => insertFile fs p np c insert_line new_str

theorem strReplaceCmd_file (fs : FS) (p np c : String) (old_str new_str : Option String)
    (hn : normalize p = some np) (hl : lookupNode fs np = some (FSNode.file c)) :
    strReplaceCmd fs p old_str new_str = strReplaceFile fs p np c old_str new_str := by
  have hbody : strReplaceCmd fs p old_str new_str =
      (match lookupNode fs np with
       | none => ("Error: File not found: " ++ p, fs)
       | some FSNode.directory => ("Error: Cannot edit a directory: " ++ p, fs)
       | some (FSNode.file c) => strReplaceFile fs p np c old_str new_str) := by
    unfold strReplaceCmd
    rw [hn]
  rw [hbody, hl]

theorem strReplaceCmd_dir (fs : FS) (p np : String) (old_str new_str : Option String)
    (hn : normalize p = some np) (hl : lookupNode fs np = some FSNode.directory) :
    strReplaceCmd fs p old_str new_str = ("Error: Cannot edit a directory: " ++ p, fs) := by
  have hbody : strReplaceCmd fs p old_str new_str =
      (match lookupNode fs np with
       | none => ("Error: File not found: " ++ p, fs)
       | some FSNode.directory => ("Error: Cannot edit a directory: " ++ p, fs)
       | some (FSNode.file c) => strReplaceFile fs p np c old_str new_str) := by
    unfold strReplaceCmd
    rw [hn]
  rw [hbody, hl]

theorem insertCmd_file (fs : FS) (p np c : String) (insert_line : Option Nat)
    (new_str : Option String)
    (hn : normalize p = some np) (hl : lookupNode fs np = some (FSNode.file c)) :
    insertCmd fs p insert_line new_str = insertFile fs p np c insert_line new_str := by
  have hbody : insertCmd fs p insert_line new_str =
      (match lookupNode fs np with
       | none => ("Error: File not found: " ++ p, fs)
       | some FSNode.directory => ("Error: Cannot edit a directory: " ++ p, fs)
       | some (FSNode.file c) => insertFile fs p np c insert_line new_str) := by
    unfold insertCmd
    rw [hn]
  rw [hbody, hl]

/-- C1: on an existing file containing at least one occurrence of a non-empty
`old_str`, `str_replace` replaces every literal occurrence (the old content is
the parts joined with `old_str` and the new content the same parts joined
with `new_str`) and reports the exact number of occurrences; with zero
occurrences it fails naming the missing string verbatim, and on a directory
it fails with a cannot-edit-directory error, in both failure cases leaving
the tree unchanged. -/
theorem spec_c1_str_replace :
    (∀ fs p np c o n pre post, normalize p = some np →
       lookupNode fs np = some (FSNode.file c) → o ≠ "" →
       c.data = pre ++ o.data ++ post →
       ((strReplaceCmd fs p (some o) (some n)).1 =
          "Replaced " ++ toString ((splitOnSub o.data c.data).length - 1) ++
            " occurrence(s) of the string in " ++ p ∧
        2 ≤ (splitOnSub o.data c.data).length ∧
        joinWith o.data (splitOnSub o.data c.data) = c.data ∧
        readFile (strReplaceCmd fs p (some o) (some n)).2 p =
          Except.ok (String.mk (joinWith n.data (splitOnSub o.data c.data))))) ∧
    (∀ fs p np c o n, normalize p = some np →
       lookupNode fs np = some (FSNode.file c) →
       (∀ pre post, c.data ≠ pre ++ o.data ++ post) →
       strReplaceCmd fs p (some o) (some n) =
         ("Error: String not found in file: \"" ++ o ++ "\"", fs)) ∧
    (∀ fs p np old_str new_str, normalize p = some np →
       lookupNode fs np = some FSNode.directory →
       strReplaceCmd fs p old_str new_str =
         ("Error: Cannot edit a directory: " ++ p, fs)) := by
  refine ⟨?_, ?_, ?_⟩
  · intro fs p np c o n pre post hn hl ho hocc
    have hone : o.data ≠ [] := by
      intro he
      apply ho
      apply stringExt
      rw [he]
    have h2 : 2 ≤ (splitOnSub o.data c.data).length :=
      splitOnSub_occurrence o.data hone pre post c.data hocc
    have hcond : ¬ ((some o).getD "" = "" ∨
        (splitOnSub ((some o).getD "").data c.data).length - 1 = 0) := by
      rintro (h' | h')
      · exact ho h'
      · simp only [Option.getD_some] at h'
        omega
    rw [strReplaceCmd_file fs p np c (some o) (some n) hn hl]
    unfold strReplaceFile
    rw [if_neg hcond]
    refine ⟨rfl, h2, joinWith_splitOnSub o.data c.data, ?_⟩
    rw [readFile_norm _ p np hn]
    rw [lookupNode_updateEntry_eq fs np _ (by rw [hl]; rfl)]
    rfl
  · intro fs p np c o n hn hl hnone
    have heq := splitOnSub_no_occurrence o.data c.data hnone
    have hcond : ((some o).getD "" = "" ∨
        (splitOnSub ((some o).getD "").data c.data).length - 1 = 0) := by
      right
      simp only [Option.getD_some]
      rw [heq]
      rfl
    rw [strReplaceCmd_file fs p np c (some o) (some n) hn hl]
    unfold strReplaceFile
    rw [if_pos hcond]
    rfl
  · intro fs p np old_str new_str hn hl
    exact strReplaceCmd_dir fs p np old_str new_str hn hl

/-- Witness for C1 at the spec example: two occurrences of `Hello` replaced
by `Hi`. -/
theorem spec_c1_str_replace_witness :
    (strReplaceCmd [("/test.txt", FSNode.file "Hello world! Hello universe!"),
        ("/", FSNode.directory)] "/test.txt" (some "Hello") (some "Hi")).1 =
      "Replaced 2 occurrence(s) of the string in /test.txt" ∧
    readFile (strReplaceCmd [("/test.txt", FSNode.file "Hello world! Hello universe!"),
        ("/", FSNode.directory)] "/test.txt" (some "Hello") (some "Hi")).2 "/test.txt" =
      Except.ok "Hi world! Hi universe!" := by
  have h := spec_c1_str_replace.1
    [("/test.txt", FSNode.file "Hello world! Hello universe!"), ("/", FSNode.directory)]
    "/test.txt" "/test.txt" "Hello world! Hello universe!" "Hello" "Hi"
    [] (" world! Hello universe!").data
    (by rfl) (by rfl) (by decide) (by decide)
  obtain ⟨h1, _, _, h4⟩ := h
  constructor
  · rw [h1]
    rfl
  · rw [h4]
    rfl

/-- C10: on an existing file, `str_replace` with an empty or omitted
`old_str` never replaces anything: it reports the string as not found
(naming the empty string) and leaves the tree unchanged. -/
theorem spec_c10_empty_old_str :
    ∀ fs p np c os ns, normalize p = some np →
      lookupNode fs np = some (FSNode.file c) →
      (os = none ∨ os = some "") →
      strReplaceCmd fs p os ns =
        ("Error: String not found in file: \"\"", fs) := by
  intro fs p np c os ns hn hl hos
  have ho : os.getD "" = "" := by
    rcases hos with h | h <;> rw [h] <;> rfl
  rw [strReplaceCmd_file fs p np c os ns hn hl]
  unfold strReplaceFile
  rw [if_pos (Or.inl ho), ho]
  rfl

/-- Witness for C10: an explicit empty `old_str` and an omitted `old_str`. -/
theorem spec_c10_empty_old_str_witness :
    strReplaceCmd [("/test.txt", FSNode.file "content"), ("/", FSNode.directory)]
      "/test.txt" (some "") (some "replacement") =
      ("Error: String not found in file: \"\"",
       [("/test.txt", FSNode.file "content"), ("/", FSNode.directory)]) ∧
    strReplaceCmd [("/test.txt", FSNode.file "content"), ("/", FSNode.directory)]
      "/test.txt" none (some "replacement") =
      ("Error: String not found in file: \"\"",
       [("/test.txt", FSNode.file "content"), ("/", FSNode.directory)]) :=
  ⟨spec_c10_empty_old_str _ "/test.txt" "/test.txt" "content" (some "") (some "replacement")
      (by rfl) (by rfl) (Or.inr rfl),
   spec_c10_empty_old_str _ "/test.txt" "/test.txt" "content" none (some "replacement")
      (by rfl) (by rfl) (Or.inl rfl)⟩

/-- Counterexample for C2 as stated: inserting `X` with `insert_line = 1`
into `line1\nline2\nline3` yields `line1\nX\nline2\nline3` — the text is
placed before the line at 0-based index 1, not after it (which would give
`line1\nline2\nX\nline3`). -/
theorem spec_c2_insert_counterexample :
    readFile (insertCmd [("/t.txt", FSNode.file "line1\nline2\nline3"),
        ("/", FSNode.directory)] "/t.txt" (some 1) (some "X")).2 "/t.txt" =
      Except.ok "line1\nX\nline2\nline3" ∧
    ("line1\nX\nline2\nline3" : String) ≠ "line1\nline2\nX\nline3" :=
  ⟨rfl, by decide⟩

/-- C2 (amended): on an existing file, with 0-based lines obtained by
splitting on newlines, `insert` with `insert_line = ln ≤ line count` places
the new text at position `ln` of the line list — before the line previously
at index `ln` (so 0 means before the first line, and the line count appends
after the last) — and the inserted text ends up at index `ln`; with
`insert_line` greater than the line count it fails with an error naming the
actual line count, leaving the content unchanged. -/
theorem spec_c2_insert_position :
    ∀ fs p np c t ln, normalize p = some np →
      lookupNode fs np = some (FSNode.file c) →
      ((ln ≤ (splitOnSub ['\n'] c.data).length →
        (insertCmd fs p (some ln) (some t)).1 =
          "Text inserted at line " ++ toString ln ++ " in " ++ p ∧
        readFile (insertCmd fs p (some ln) (some t)).2 p =
          Except.ok (String.mk (joinWith ['\n']
            ((splitOnSub ['\n'] c.data).take ln ++ t.data ::
             (splitOnSub ['\n'] c.data).drop ln))) ∧
        ((splitOnSub ['\n'] c.data).take ln ++ t.data ::
          (splitOnSub ['\n'] c.data).drop ln)[ln]? = some t.data) ∧
       ((splitOnSub ['\n'] c.data).length < ln →
        insertCmd fs p (some ln) (some t) =
          ("Error: Invalid line number: " ++ toString ln ++ ". File has " ++
            toString (splitOnSub ['\n'] c.data).length ++ " lines.", fs))) := by
  intro fs p np c t ln hn hl
  constructor
  · intro hle
    have hcond : ¬ ((splitOnSub ['\n'] c.data).length < (some ln).getD 0) := by
      simp only [Option.getD_some]
      omega
    rw [insertCmd_file fs p np c (some ln) (some t) hn hl]
    unfold insertFile
    rw [if_neg hcond]
    refine ⟨rfl, ?_, ?_⟩
    · rw [readFile_norm _ p np hn]
      rw [lookupNode_updateEntry_eq fs np _ (by rw [hl]; rfl)]
      rfl
    · have hlen : ((splitOnSub ['\n'] c.data).take ln).length = ln := by
        rw [List.length_take]
        omega
      rw [List.getElem?_append_right (by rw [hlen])]
      rw [hlen, Nat.sub_self]
      rw [List.getElem?_cons_zero]
  · intro hgt
    have hcond : ((splitOnSub ['\n'] c.data).length < (some ln).getD 0) := by
      simp only [Option.getD_some]
      omega
    rw [insertCmd_file fs p np c (some ln) (some t) hn hl]
    unfold insertFile
    rw [if_pos hcond]
    rfl

/-- Witness for C2 (amended): out-of-range insert errors naming the line
count; insert at 0 prepends; insert at the line count appends. -/
theorem spec_c2_insert_position_witness :
    (insertCmd [("/t.txt", FSNode.file "line1\nline2"), ("/", FSNode.directory)]
        "/t.txt" (some 1000) (some "text")).1 =
      "Error: Invalid line number: 1000. File has 2 lines." ∧
    readFile (insertCmd [("/t.txt", FSNode.file "line1\nline2"), ("/", FSNode.directory)]
        "/t.txt" (some 0) (some "first")).2 "/t.txt" =
      Except.ok "first\nline1\nline2" ∧
    readFile (insertCmd [("/t.txt", FSNode.file "line1\nline2"), ("/", FSNode.directory)]
        "/t.txt" (some 2) (some "last")).2 "/t.txt" =
      Except.ok "line1\nline2\nlast" := by
  have hA := (spec_c2_insert_position
    [("/t.txt", FSNode.file "line1\nline2"), ("/", FSNode.directory)]
    "/t.txt" "/t.txt" "line1\nline2" "text" 1000 (by rfl) (by rfl)).2 (by decide)
  have hB := ((spec_c2_insert_position
    [("/t.txt", FSNode.file "line1\nline2"), ("/", FSNode.directory)]
    "/t.txt" "/t.txt" "line1\nline2" "first" 0 (by rfl) (by rfl)).1 (by decide)).2.1
  have hC := ((spec_c2_insert_position
    [("/t.txt", FSNode.file "line1\nline2"), ("/", FSNode.directory)]
    "/t.txt" "/t.txt" "line1\nline2" "last" 2 (by rfl) (by rfl)).1 (by decide)).2.1
  refine ⟨?_, ?_, ?_⟩
  · rw [hA]
    rfl
  · rw [hB]
    rfl
  · rw [hC]
    rfl

/-! The preview frame.

Modelled from the spec: the PreviewFrame component and its entry-point
selection policy (spec section 4.5) are absent from the provided sources;
behaviour follows the spec and
`src/components/preview/__tests__/PreviewFrame.test.tsx`. -/

/-- The standard entry points, in priority order. -/
def entryCandidates : List String :=
  ["/App.jsx", "/App.tsx", "/index.jsx", "/index.tsx", "/src/App.jsx", "/src/App.tsx"]

/-- Whether the file mapping contains the given path as a key. -/
def hasFileKey (files : List (String × String)) (k : String) : Bool :=
  files.any (fun e => e.1 = k)

/-- Whether a path names a JSX-or-TSX file (ends with `.jsx` or `.tsx`). -/
def isComponentFile (p : String) : Bool :=
  (".jsx".data).isSuffixOf p.data || (".tsx".data).isSuffixOf p.data

/-- Modelled from the spec: entry-point selection — the first standard
candidate present, else the insertion-first JSX-or-TSX file, else none. -/
def getEntryPoint (files : List (String × String)) : Option String :=
  match entryCandidates.find? (fun c => hasFileKey files c) with
  | some c => some c
  | none => (files.find? (fun e => isComponentFile e.1)).map (fun e => e.1)

/-- What the preview frame renders. -/
inductive PreviewState where
  | welcome
  | noPreview (message : String)
  | frame (sandbox srcdoc : String)
deriving DecidableEq

/-- The sandbox policy of the preview iframe. -/
def sandboxPolicy : String := "allow-scripts allow-same-origin allow-forms"

/-- Modelled from the spec: the preview frame — welcome state without files,
a no-preview state when no entry point exists, otherwise a sandboxed iframe
whose document is produced by `createPreviewHTML` (passed in as `cph`). -/
def renderPreview (cph : String → String) (files : List (String × String)) :
    PreviewState :=
  if files.isEmpty then PreviewState.welcome
  else
    match getEntryPoint files with
    | none => PreviewState.noPreview
        "No React component found. Create an App.jsx or index.jsx file to get started."
    | some e => PreviewState.frame sandboxPolicy (cph e)

theorem find?_first {α : Type} (P : α → Bool) (d : α) :
    ∀ (l : List α) (i : Nat), i < l.length → P (l.getD i d) = true →
      (∀ j, j < i → P (l.getD j d) = false) → l.find? P = some (l.getD i d) := by
  intro l
  induction l with
  | nil => intro i hi; simp at hi
  | cons a l ih =>
    intro i hi hp hprev
    cases i with
    | zero =>
      rw [List.getD_cons_zero] at hp
      rw [List.find?_cons_of_pos _ hp, List.getD_cons_zero]
    | succ i' =>
      have h0 : P a = false := by
        have h00 := hprev 0 (Nat.succ_pos i')
        rw [List.getD_cons_zero] at h00
        exact h00
      rw [List.find?_cons_of_neg _ (by rw [h0]; simp)]
      rw [List.getD_cons_succ] at hp ⊢
      refine ih i' (by rw [List.length_cons] at hi; omega) hp ?_
      intro j hj
      have hjj := hprev (j + 1) (by omega)
      rw [List.getD_cons_succ] at hjj
      exact hjj

theorem find?_append_first {α : Type} (P : α → Bool) (x : α) (post : List α) :
    ∀ pre, (∀ e ∈ pre, P e = false) → P x = true →
      (pre ++ x :: post).find? P = some x := by
  intro pre
  induction pre with
  | nil =>
    intro _ hx
    rw [List.nil_append, List.find?_cons_of_pos _ hx]
  | cons a pre ih =>
    intro hpre hx
    rw [List.cons_append,
      List.find?_cons_of_neg _ (by rw [hpre a (by simp)]; simp)]
    exact ih (fun e he => hpre e (by simp [he])) hx

/-- C7: entry-point selection takes the first existing candidate in the
priority order (a fact that depends only on which candidates are keys, not on
the mapping's order); with no candidate present it falls back to the
insertion-first JSX-or-TSX file; with no JSX/TSX file at all there is no
entry point and the frame renders the no-preview state for every
`createPreviewHTML` function (which is therefore never consulted). -/
theorem spec_c7_entry_point :
    (∀ (files : List (String × String)) (i : Nat), i < entryCandidates.length →
       hasFileKey files (entryCandidates.getD i "") = true →
       (∀ j, j < i → hasFileKey files (entryCandidates.getD j "") = false) →
       getEntryPoint files = some (entryCandidates.getD i "")) ∧
    (∀ (files pre post : List (String × String)) (k v : String),
       (∀ c ∈ entryCandidates, hasFileKey files c = false) →
       files = pre ++ (k, v) :: post →
       (∀ e ∈ pre, isComponentFile e.1 = false) →
       isComponentFile k = true →
       getEntryPoint files = some k) ∧
    (∀ files : List (String × String),
       (∀ e ∈ files, isComponentFile e.1 = false) →
       getEntryPoint files = none ∧
       (files ≠ [] → ∀ cph : String → String, renderPreview cph files =
         PreviewState.noPreview
           "No React component found. Create an App.jsx or index.jsx file to get started.")) := by
  refine ⟨?_, ?_, ?_⟩
  · intro files i hi hp hprev
    unfold getEntryPoint
    rw [find?_first (fun c => hasFileKey files c) "" entryCandidates i hi hp hprev]
  · intro files pre post k v hcand hfiles hpre hk
    unfold getEntryPoint
    have hnone : entryCandidates.find? (fun c => hasFileKey files c) = none := by
      rw [List.find?_eq_none]
      intro c hc
      rw [hcand c hc]
      simp
    rw [hnone, hfiles]
    rw [find?_append_first (fun e => isComponentFile e.1) (k, v) post pre hpre hk]
    rfl
  · intro files hall
    have hcand : ∀ c ∈ entryCandidates, hasFileKey files c = false := by
      intro c hc
      by_cases h : hasFileKey files c = true
      · exfalso
        unfold hasFileKey at h
        obtain ⟨e, he, hpe⟩ := List.any_eq_true.mp h
        have hec : e.1 = c := by simpa using hpe
        have hcc : isComponentFile c = true := by
          rw [← hec]
          rw [← hec] at hc
          revert hc
          have : ∀ c ∈ entryCandidates, isComponentFile c = true := by decide
          exact this e.1
        rw [← hec] at hcc
        rw [hall e he] at hcc
        exact Bool.noConfusion hcc
      · exact Bool.eq_false_iff.mpr h
    have hmain : getEntryPoint files = none := by
      unfold getEntryPoint
      have hnone : entryCandidates.find? (fun c => hasFileKey files c) = none := by
        rw [List.find?_eq_none]
        intro c hc
        rw [hcand c hc]
        simp
      rw [hnone]
      have hfiles : files.find? (fun e => isComponentFile e.1) = none := by
        rw [List.find?_eq_none]
        intro e he
        rw [hall e he]
        simp
      rw [hfiles]
      rfl
    refine ⟨hmain, ?_⟩
    intro hne cph
    unfold renderPreview
    rw [if_neg (by simpa using hne), hmain]

/-- Witness for C7: `/App.jsx` wins over an earlier-inserted component file;
a mapping with no JSX/TSX files has no entry point and renders the
no-preview state. -/
theorem spec_c7_entry_point_witness :
    getEntryPoint [("/components/Button.jsx", "b"), ("/App.jsx", "a"),
        ("/utils.js", "u")] = some "/App.jsx" ∧
    getEntryPoint [("/styles.css", "s"), ("/utils.js", "u")] = none ∧
    renderPreview (fun _ => "HTML") [("/styles.css", "s"), ("/utils.js", "u")] =
      PreviewState.noPreview
        "No React component found. Create an App.jsx or index.jsx file to get started." := by
  have hA := spec_c7_entry_point.1
    [("/components/Button.jsx", "b"), ("/App.jsx", "a"), ("/utils.js", "u")]
    0 (by decide) (by decide) (fun j hj => absurd hj (Nat.not_lt_zero j))
  have hC := spec_c7_entry_point.2.2 [("/styles.css", "s"), ("/utils.js", "u")] (by decide)
  exact ⟨hA, hC.1, hC.2 (by decide) (fun _ => "HTML")⟩

/-- C9: whenever the preview frame renders a successful preview, the sandbox
attribute of the iframe is exactly
`allow-scripts allow-same-origin allow-forms`. -/
theorem spec_c9_sandbox :
    ∀ (cph : String → String) (files : List (String × String)) (sb sd : String),
      renderPreview cph files = PreviewState.frame sb sd →
      sb = "allow-scripts allow-same-origin allow-forms" := by
  intro cph files sb sd h
  unfold renderPreview at h
  by_cases he : files.isEmpty
  · rw [if_pos he] at h
    exact absurd h (by simp)
  · rw [if_neg he] at h
    cases hg : getEntryPoint files with
    | none =>
      rw [hg] at h
      exact absurd h (by simp)
    | some e =>
      rw [hg] at h
      injection h with h1 h2
      exact h1.symm

/-- Witness for C9 on a one-file mapping with `/App.jsx`. -/
theorem spec_c9_sandbox_witness :
    renderPreview (fun _ => "<html></html>") [("/App.jsx", "export default x")] =
      PreviewState.frame "allow-scripts allow-same-origin allow-forms" "<html></html>" ∧
    "allow-scripts allow-same-origin allow-forms" =
      "allow-scripts allow-same-origin allow-forms" :=
  ⟨rfl, spec_c9_sandbox (fun _ => "<html></html>") [("/App.jsx", "export default x")]
    "allow-scripts allow-same-origin allow-forms" "<html></html>" rfl⟩

end UIGen
